import Mathlib

/-!
Verification of the secure-chat repository's cryptographic and framing core.

Each definition is a shallow embedding of the corresponding Python function:
bytes are `List Nat` with every element `< 256`, machine integers are `Nat`,
stateful objects are records passed explicitly, and fallible operations
return `Option`.  Loops that terminate by a decreasing measure are embedded
with an explicit fuel argument large enough that the fuel never runs out.
-/

set_option maxRecDepth 10000

namespace SecureChat

/-! ## Galois field GF(2^8)  (crypto/aes/galois_field.py)

`GF = GaloisField()` uses the fixed AES modulus 283 = 0x11B, whose bit
length is 9, so the overflow bit mask `1 <<< (modulus.bit_length() - 1)`
is 256. -/

/-- One doubling step of the russian-peasant loop: `a <<= 1` followed by
`if a & bit_mask: a ^= modulus` with modulus 283 and mask 256. -/
def xtime (a : Nat) : Nat :=
  let t := a <<< 1
  if t &&& 256 ≠ 0 then t ^^^ 283 else t

/-- Body of `GaloisField.multiply`'s `while b:` loop, with fuel.
State: `a` (shifted multiplicand), `b` (remaining multiplier bits),
`c` (accumulator).  Each iteration: if the low bit of `b` is set the
current `a` is XORed into `c`; then `b` is halved and `a` is doubled
(reduced by the modulus on overflow). -/
def gfMulAux : Nat → Nat → Nat → Nat → Nat
  | 0, _, _, c => c
  | fuel + 1, a, b, c =>
    if b = 0 then c
    else gfMulAux fuel (xtime a) (b / 2) (if b % 2 = 1 then c ^^^ a else c)

/-- `GaloisField.multiply a b` over GF(2^8) with modulus 283.  The loop
halves `b` each iteration, so `b + 1` units of fuel always suffice. -/
def gfMul (a b : Nat) : Nat :=
  gfMulAux (b + 1) a b 0

theorem xtime_lt (a : Nat) (h : a < 256) : xtime a < 256 := by
  revert h; revert a; decide

theorem shiftLeft_one_xor (x y : Nat) : (x ^^^ y) <<< 1 = (x <<< 1) ^^^ (y <<< 1) := by
  apply Nat.eq_of_testBit_eq; intro i
  simp only [Nat.testBit_shiftLeft, Nat.testBit_xor]
  cases h : decide (1 ≤ i) <;> simp

theorem and_xor_right (a b c : Nat) : (a ^^^ b) &&& c = (a &&& c) ^^^ (b &&& c) := by
  apply Nat.eq_of_testBit_eq; intro i
  simp only [Nat.testBit_and, Nat.testBit_xor]
  cases h : c.testBit i <;> simp

theorem xor_left_comm (a b c : Nat) : a ^^^ (b ^^^ c) = b ^^^ (a ^^^ c) := by
  rw [← Nat.xor_assoc, Nat.xor_comm a b, Nat.xor_assoc]

/-- The doubling step is linear over XOR. -/
theorem xtime_xor (x y : Nat) : xtime (x ^^^ y) = xtime x ^^^ xtime y := by
  unfold xtime
  simp only [shiftLeft_one_xor, and_xor_right]
  have h256 : (256 : Nat) = 2 ^ 8 := by norm_num
  rw [h256, Nat.and_two_pow (x <<< 1) 8, Nat.and_two_pow (y <<< 1) 8]
  cases hbx : (x <<< 1).testBit 8 <;> cases hby : (y <<< 1).testBit 8 <;> simp <;>
    simp [Nat.xor_assoc, Nat.xor_comm, xor_left_comm, Nat.xor_self, Nat.xor_zero]

theorem gfMulAux_lt (fuel : Nat) : ∀ a b c : Nat, a < 256 → c < 256 →
    gfMulAux fuel a b c < 256 := by
  induction fuel with
  | zero => intro a b c _ hc; exact hc
  | succ n ih =>
    intro a b c ha hc
    unfold gfMulAux
    by_cases hb : b = 0
    · simp [hb, hc]
    · simp only [hb, if_false]
      refine ih (xtime a) (b / 2) _ (xtime_lt a ha) ?_
      by_cases hpar : b % 2 = 1
      · simpa [hpar] using Nat.xor_lt_two_pow (n := 8) hc ha
      · simpa [hpar] using hc

theorem gfMul_lt (a b : Nat) (ha : a < 256) : gfMul a b < 256 :=
  gfMulAux_lt (b + 1) a b 0 ha (by decide)

theorem gfMulAux_xor (fuel : Nat) : ∀ b x y c₁ c₂ : Nat,
    gfMulAux fuel (x ^^^ y) b (c₁ ^^^ c₂) =
      gfMulAux fuel x b c₁ ^^^ gfMulAux fuel y b c₂ := by
  induction fuel with
  | zero => intro b x y c₁ c₂; rfl
  | succ n ih =>
    intro b x y c₁ c₂
    unfold gfMulAux
    by_cases hb : b = 0
    · simp [hb]
    · simp only [hb, if_false]
      rw [xtime_xor x y]
      by_cases hpar : b % 2 = 1
      · rw [if_pos hpar, if_pos hpar, if_pos hpar]
        have hsh : c₁ ^^^ c₂ ^^^ (x ^^^ y) = (c₁ ^^^ x) ^^^ (c₂ ^^^ y) := by
          rw [Nat.xor_assoc, Nat.xor_assoc, Nat.xor_comm c₂ (x ^^^ y),
            Nat.xor_assoc, Nat.xor_comm y c₂]
        rw [hsh]
        exact ih (b / 2) (xtime x) (xtime y) _ _
      · rw [if_neg hpar, if_neg hpar, if_neg hpar]
        exact ih (b / 2) (xtime x) (xtime y) _ _

/-- GF multiplication distributes over XOR in the (data) first argument. -/
theorem gfMul_xor (x y b : Nat) :
    gfMul (x ^^^ y) b = gfMul x b ^^^ gfMul y b := by
  unfold gfMul
  simpa using gfMulAux_xor (b + 1) b x y 0 0

/-! ## AES constants  (crypto/aes/constants.py)

Modelled from the spec: the module `crypto/aes/constants.py` holding
`AES_SBOX`, `AES_SBOX_INVERSE`, `AES_MIXING_MATRIX` and
`AES_MIXING_MATRIX_INVERSE` is not present under src/.  The spec fixes the
cipher as AES with "forward S-Box and inverse S-Box (256-byte
permutations)" — the standard FIPS-197 tables, confirmed by the spec's
AES-128 known-answer scenario S1 — and gives both mixing matrices
explicitly in section 4.2. -/

/-- Modelled from the spec: the standard AES forward S-box (`AES_SBOX`). -/
def AES_SBOX : List Nat :=
  [99, 124, 119, 123, 242, 107, 111, 197, 48, 1, 103, 43, 254, 215, 171, 118,
   202, 130, 201, 125, 250, 89, 71, 240, 173, 212, 162, 175, 156, 164, 114, 192,
   183, 253, 147, 38, 54, 63, 247, 204, 52, 165, 229, 241, 113, 216, 49, 21,
   4, 199, 35, 195, 24, 150, 5, 154, 7, 18, 128, 226, 235, 39, 178, 117,
   9, 131, 44, 26, 27, 110, 90, 160, 82, 59, 214, 179, 41, 227, 47, 132,
   83, 209, 0, 237, 32, 252, 177, 91, 106, 203, 190, 57, 74, 76, 88, 207,
   208, 239, 170, 251, 67, 77, 51, 133, 69, 249, 2, 127, 80, 60, 159, 168,
   81, 163, 64, 143, 146, 157, 56, 245, 188, 182, 218, 33, 16, 255, 243, 210,
   205, 12, 19, 236, 95, 151, 68, 23, 196, 167, 126, 61, 100, 93, 25, 115,
   96, 129, 79, 220, 34, 42, 144, 136, 70, 238, 184, 20, 222, 94, 11, 219,
   224, 50, 58, 10, 73, 6, 36, 92, 194, 211, 172, 98, 145, 149, 228, 121,
   231, 200, 55, 109, 141, 213, 78, 169, 108, 86, 244, 234, 101, 122, 174, 8,
   186, 120, 37, 46, 28, 166, 180, 198, 232, 221, 116, 31, 75, 189, 139, 138,
   112, 62, 181, 102, 72, 3, 246, 14, 97, 53, 87, 185, 134, 193, 29, 158,
   225, 248, 152, 17, 105, 217, 142, 148, 155, 30, 135, 233, 206, 85, 40, 223,
   140, 161, 137, 13, 191, 230, 66, 104, 65, 153, 45, 15, 176, 84, 187, 22]

/-- Modelled from the spec: the standard AES inverse S-box
(`AES_SBOX_INVERSE`). -/
def AES_SBOX_INVERSE : List Nat :=
  [82, 9, 106, 213, 48, 54, 165, 56, 191, 64, 163, 158, 129, 243, 215, 251,
   124, 227, 57, 130, 155, 47, 255, 135, 52, 142, 67, 68, 196, 222, 233, 203,
   84, 123, 148, 50, 166, 194, 35, 61, 238, 76, 149, 11, 66, 250, 195, 78,
   8, 46, 161, 102, 40, 217, 36, 178, 118, 91, 162, 73, 109, 139, 209, 37,
   114, 248, 246, 100, 134, 104, 152, 22, 212, 164, 92, 204, 93, 101, 182, 146,
   108, 112, 72, 80, 253, 237, 185, 218, 94, 21, 70, 87, 167, 141, 157, 132,
   144, 216, 171, 0, 140, 188, 211, 10, 247, 228, 88, 5, 184, 179, 69, 6,
   208, 44, 30, 143, 202, 63, 15, 2, 193, 175, 189, 3, 1, 19, 138, 107,
   58, 145, 17, 65, 79, 103, 220, 234, 151, 242, 207, 206, 240, 180, 230, 115,
   150, 172, 116, 34, 231, 173, 53, 133, 226, 249, 55, 232, 28, 117, 223, 110,
   71, 241, 26, 113, 29, 41, 197, 137, 111, 183, 98, 14, 170, 24, 190, 27,
   252, 86, 62, 75, 198, 210, 121, 32, 154, 219, 192, 254, 120, 205, 90, 244,
   31, 221, 168, 51, 136, 7, 199, 49, 177, 18, 16, 89, 39, 128, 236, 95,
   96, 81, 127, 169, 25, 181, 74, 13, 45, 229, 122, 159, 147, 201, 156, 239,
   160, 224, 59, 77, 174, 42, 245, 176, 200, 235, 187, 60, 131, 83, 153, 97,
   23, 43, 4, 126, 186, 119, 214, 38, 225, 105, 20, 99, 85, 33, 12, 125]

/-- Forward MixColumns matrix (`AES_MIXING_MATRIX`), row-major, as given
by the spec: `[[2,3,1,1],[1,2,3,1],[1,1,2,3],[3,1,1,2]]`. -/
def AES_MIXING_MATRIX : List Nat :=
  [2, 3, 1, 1, 1, 2, 3, 1, 1, 1, 2, 3, 3, 1, 1, 2]

/-- Inverse MixColumns matrix (`AES_MIXING_MATRIX_INVERSE`), row-major, as
given by the spec: `[[14,11,13,9],[9,14,11,13],[13,9,14,11],[11,13,9,14]]`. -/
def AES_MIXING_MATRIX_INVERSE : List Nat :=
  [14, 11, 13, 9, 9, 14, 11, 13, 13, 9, 14, 11, 11, 13, 9, 14]

/-- Byte lookup `AES_SBOX[value]`. -/
def sbox (b : Nat) : Nat := AES_SBOX.getD b 0

/-- Byte lookup `AES_SBOX_INVERSE[value]`. -/
def sboxInv (b : Nat) : Nat := AES_SBOX_INVERSE.getD b 0

theorem sboxInv_sbox : ∀ b < 256, sboxInv (sbox b) = b := by decide

theorem sbox_lt : ∀ b < 256, sbox b < 256 := by decide

/-! ## AES state operations  (crypto/aes/block.py)

The 16-byte state is a `List Nat`, column-major exactly as the in-place
`memoryview` of the source. -/

/-- `sub_bytes`: substitute every state byte through the S-box. -/
def subBytes (state : List Nat) : List Nat := state.map sbox

/-- `sub_bytes_inverse`: substitute through the inverse S-box. -/
def subBytesInv (state : List Nat) : List Nat := state.map sboxInv

/-- `shift_rows`: rotate row r of the column-major state left by r. -/
def shiftRows : List Nat → List Nat
  | [s0, s1, s2, s3, s4, s5, s6, s7, s8, s9, s10, s11, s12, s13, s14, s15] =>
    [s0, s5, s10, s15, s4, s9, s14, s3, s8, s13, s2, s7, s12, s1, s6, s11]
  | s => s

/-- `shift_rows_inverse`: rotate row r of the state right by r. -/
def shiftRowsInv : List Nat → List Nat
  | [s0, s1, s2, s3, s4, s5, s6, s7, s8, s9, s10, s11, s12, s13, s14, s15] =>
    [s0, s13, s10, s7, s4, s1, s14, s11, s8, s5, s2, s15, s12, s9, s6, s3]
  | s => s

/-- `GaloisField.transform`: out[row] = XOR over col of
`multiply(vector[col], matrix[row*n+col])`. -/
def transform (vector matrix : List Nat) : List Nat :=
  (List.range vector.length).map fun row =>
    (List.range vector.length).foldl
      (fun acc col => acc ^^^ gfMul (vector.getD col 0)
        (matrix.getD (row * vector.length + col) 0)) 0

/-- `mix_columns` (and its inverse, by matrix choice): apply the GF
transform to each 4-byte column of the state. -/
def mixColumnsWith (matrix s : List Nat) : List Nat :=
  transform ((s.drop 0).take 4) matrix ++ transform ((s.drop 4).take 4) matrix ++
  transform ((s.drop 8).take 4) matrix ++ transform ((s.drop 12).take 4) matrix

/-- `mix_columns` with `AES_MIXING_MATRIX`. -/
def mixColumns (state : List Nat) : List Nat :=
  mixColumnsWith AES_MIXING_MATRIX state

/-- `mix_columns_inverse` with `AES_MIXING_MATRIX_INVERSE`. -/
def mixColumnsInv (state : List Nat) : List Nat :=
  mixColumnsWith AES_MIXING_MATRIX_INVERSE state

/-- `add_round_key` / `xor_word` / `xor_block`: byte-wise XOR. -/
def addRoundKey (state key : List Nat) : List Nat :=
  List.zipWith (· ^^^ ·) state key

theorem shiftRowsInv_shiftRows (s0 s1 s2 s3 s4 s5 s6 s7 s8 s9 s10 s11 s12 s13 s14 s15 : Nat) :
    shiftRowsInv (shiftRows
      [s0, s1, s2, s3, s4, s5, s6, s7, s8, s9, s10, s11, s12, s13, s14, s15]) =
      [s0, s1, s2, s3, s4, s5, s6, s7, s8, s9, s10, s11, s12, s13, s14, s15] := rfl

theorem addRoundKey_addRoundKey : ∀ (s k : List Nat), s.length ≤ k.length →
    addRoundKey (addRoundKey s k) k = s := by
  intro s
  induction s with
  | nil => intro k _; rfl
  | cons a s ih =>
    intro k hl
    cases k with
    | nil => simp at hl
    | cons b k =>
      simp only [addRoundKey, List.zipWith_cons_cons] at *
      rw [Nat.xor_cancel_right]
      exact congrArg (a :: ·) (ih k (Nat.le_of_succ_le_succ hl))

/-! ## MixColumns inversion -/

theorem mixS00 : ∀ x < 256, gfMul (gfMul x 2) 14 ^^^ gfMul (gfMul x 1) 11 ^^^ gfMul (gfMul x 1) 13 ^^^ gfMul (gfMul x 3) 9 = x := by decide

theorem mixS01 : ∀ x < 256, gfMul (gfMul x 3) 14 ^^^ gfMul (gfMul x 2) 11 ^^^ gfMul (gfMul x 1) 13 ^^^ gfMul (gfMul x 1) 9 = 0 := by decide

theorem mixS02 : ∀ x < 256, gfMul (gfMul x 1) 14 ^^^ gfMul (gfMul x 3) 11 ^^^ gfMul (gfMul x 2) 13 ^^^ gfMul (gfMul x 1) 9 = 0 := by decide

theorem mixS03 : ∀ x < 256, gfMul (gfMul x 1) 14 ^^^ gfMul (gfMul x 1) 11 ^^^ gfMul (gfMul x 3) 13 ^^^ gfMul (gfMul x 2) 9 = 0 := by decide

theorem mixS10 : ∀ x < 256, gfMul (gfMul x 2) 9 ^^^ gfMul (gfMul x 1) 14 ^^^ gfMul (gfMul x 1) 11 ^^^ gfMul (gfMul x 3) 13 = 0 := by decide

theorem mixS11 : ∀ x < 256, gfMul (gfMul x 3) 9 ^^^ gfMul (gfMul x 2) 14 ^^^ gfMul (gfMul x 1) 11 ^^^ gfMul (gfMul x 1) 13 = x := by decide

theorem mixS12 : ∀ x < 256, gfMul (gfMul x 1) 9 ^^^ gfMul (gfMul x 3) 14 ^^^ gfMul (gfMul x 2) 11 ^^^ gfMul (gfMul x 1) 13 = 0 := by decide

theorem mixS13 : ∀ x < 256, gfMul (gfMul x 1) 9 ^^^ gfMul (gfMul x 1) 14 ^^^ gfMul (gfMul x 3) 11 ^^^ gfMul (gfMul x 2) 13 = 0 := by decide

theorem mixS20 : ∀ x < 256, gfMul (gfMul x 2) 13 ^^^ gfMul (gfMul x 1) 9 ^^^ gfMul (gfMul x 1) 14 ^^^ gfMul (gfMul x 3) 11 = 0 := by decide

theorem mixS21 : ∀ x < 256, gfMul (gfMul x 3) 13 ^^^ gfMul (gfMul x 2) 9 ^^^ gfMul (gfMul x 1) 14 ^^^ gfMul (gfMul x 1) 11 = 0 := by decide

theorem mixS22 : ∀ x < 256, gfMul (gfMul x 1) 13 ^^^ gfMul (gfMul x 3) 9 ^^^ gfMul (gfMul x 2) 14 ^^^ gfMul (gfMul x 1) 11 = x := by decide

theorem mixS23 : ∀ x < 256, gfMul (gfMul x 1) 13 ^^^ gfMul (gfMul x 1) 9 ^^^ gfMul (gfMul x 3) 14 ^^^ gfMul (gfMul x 2) 11 = 0 := by decide

theorem mixS30 : ∀ x < 256, gfMul (gfMul x 2) 11 ^^^ gfMul (gfMul x 1) 13 ^^^ gfMul (gfMul x 1) 9 ^^^ gfMul (gfMul x 3) 14 = 0 := by decide

theorem mixS31 : ∀ x < 256, gfMul (gfMul x 3) 11 ^^^ gfMul (gfMul x 2) 13 ^^^ gfMul (gfMul x 1) 9 ^^^ gfMul (gfMul x 1) 14 = 0 := by decide

theorem mixS32 : ∀ x < 256, gfMul (gfMul x 1) 11 ^^^ gfMul (gfMul x 3) 13 ^^^ gfMul (gfMul x 2) 9 ^^^ gfMul (gfMul x 1) 14 = 0 := by decide

theorem mixS33 : ∀ x < 256, gfMul (gfMul x 1) 11 ^^^ gfMul (gfMul x 1) 13 ^^^ gfMul (gfMul x 3) 9 ^^^ gfMul (gfMul x 2) 14 = x := by decide

theorem transform4_mix (v0 v1 v2 v3 : Nat) :
    transform [v0, v1, v2, v3] AES_MIXING_MATRIX =
      [0 ^^^ gfMul v0 2 ^^^ gfMul v1 3 ^^^ gfMul v2 1 ^^^ gfMul v3 1,
       0 ^^^ gfMul v0 1 ^^^ gfMul v1 2 ^^^ gfMul v2 3 ^^^ gfMul v3 1,
       0 ^^^ gfMul v0 1 ^^^ gfMul v1 1 ^^^ gfMul v2 2 ^^^ gfMul v3 3,
       0 ^^^ gfMul v0 3 ^^^ gfMul v1 1 ^^^ gfMul v2 1 ^^^ gfMul v3 2] := rfl

theorem transform4_mixinv (v0 v1 v2 v3 : Nat) :
    transform [v0, v1, v2, v3] AES_MIXING_MATRIX_INVERSE =
      [0 ^^^ gfMul v0 14 ^^^ gfMul v1 11 ^^^ gfMul v2 13 ^^^ gfMul v3 9,
       0 ^^^ gfMul v0 9 ^^^ gfMul v1 14 ^^^ gfMul v2 11 ^^^ gfMul v3 13,
       0 ^^^ gfMul v0 13 ^^^ gfMul v1 9 ^^^ gfMul v2 14 ^^^ gfMul v3 11,
       0 ^^^ gfMul v0 11 ^^^ gfMul v1 13 ^^^ gfMul v2 9 ^^^ gfMul v3 14] := rfl

set_option maxHeartbeats 3000000 in
theorem transform_mix_col (v0 v1 v2 v3 : Nat)
    (h0 : v0 < 256) (h1 : v1 < 256) (h2 : v2 < 256) (h3 : v3 < 256) :
    transform
      [0 ^^^ gfMul v0 2 ^^^ gfMul v1 3 ^^^ gfMul v2 1 ^^^ gfMul v3 1,
       0 ^^^ gfMul v0 1 ^^^ gfMul v1 2 ^^^ gfMul v2 3 ^^^ gfMul v3 1,
       0 ^^^ gfMul v0 1 ^^^ gfMul v1 1 ^^^ gfMul v2 2 ^^^ gfMul v3 3,
       0 ^^^ gfMul v0 3 ^^^ gfMul v1 1 ^^^ gfMul v2 1 ^^^ gfMul v3 2]
      AES_MIXING_MATRIX_INVERSE = [v0, v1, v2, v3] := by
  rw [transform4_mixinv]
  simp only [Nat.zero_xor, gfMul_xor]
  simp only [List.cons.injEq, and_true]
  refine ⟨?_, ?_, ?_, ?_⟩

  · have htot : (gfMul (gfMul v0 2) 14 ^^^ gfMul (gfMul v0 1) 11 ^^^ gfMul (gfMul v0 1) 13 ^^^ gfMul (gfMul v0 3) 9) ^^^ (gfMul (gfMul v1 3) 14 ^^^ gfMul (gfMul v1 2) 11 ^^^ gfMul (gfMul v1 1) 13 ^^^ gfMul (gfMul v1 1) 9) ^^^ (gfMul (gfMul v2 1) 14 ^^^ gfMul (gfMul v2 3) 11 ^^^ gfMul (gfMul v2 2) 13 ^^^ gfMul (gfMul v2 1) 9) ^^^ (gfMul (gfMul v3 1) 14 ^^^ gfMul (gfMul v3 1) 11 ^^^ gfMul (gfMul v3 3) 13 ^^^ gfMul (gfMul v3 2) 9) = v0 := by
      rw [mixS00 v0 h0, mixS01 v1 h1, mixS02 v2 h2, mixS03 v3 h3]
      simp
    conv_rhs => rw [← htot]
    ac_rfl
  · have htot : (gfMul (gfMul v0 2) 9 ^^^ gfMul (gfMul v0 1) 14 ^^^ gfMul (gfMul v0 1) 11 ^^^ gfMul (gfMul v0 3) 13) ^^^ (gfMul (gfMul v1 3) 9 ^^^ gfMul (gfMul v1 2) 14 ^^^ gfMul (gfMul v1 1) 11 ^^^ gfMul (gfMul v1 1) 13) ^^^ (gfMul (gfMul v2 1) 9 ^^^ gfMul (gfMul v2 3) 14 ^^^ gfMul (gfMul v2 2) 11 ^^^ gfMul (gfMul v2 1) 13) ^^^ (gfMul (gfMul v3 1) 9 ^^^ gfMul (gfMul v3 1) 14 ^^^ gfMul (gfMul v3 3) 11 ^^^ gfMul (gfMul v3 2) 13) = v1 := by
      rw [mixS10 v0 h0, mixS11 v1 h1, mixS12 v2 h2, mixS13 v3 h3]
      simp
    conv_rhs => rw [← htot]
    ac_rfl
  · have htot : (gfMul (gfMul v0 2) 13 ^^^ gfMul (gfMul v0 1) 9 ^^^ gfMul (gfMul v0 1) 14 ^^^ gfMul (gfMul v0 3) 11) ^^^ (gfMul (gfMul v1 3) 13 ^^^ gfMul (gfMul v1 2) 9 ^^^ gfMul (gfMul v1 1) 14 ^^^ gfMul (gfMul v1 1) 11) ^^^ (gfMul (gfMul v2 1) 13 ^^^ gfMul (gfMul v2 3) 9 ^^^ gfMul (gfMul v2 2) 14 ^^^ gfMul (gfMul v2 1) 11) ^^^ (gfMul (gfMul v3 1) 13 ^^^ gfMul (gfMul v3 1) 9 ^^^ gfMul (gfMul v3 3) 14 ^^^ gfMul (gfMul v3 2) 11) = v2 := by
      rw [mixS20 v0 h0, mixS21 v1 h1, mixS22 v2 h2, mixS23 v3 h3]
      simp
    conv_rhs => rw [← htot]
    ac_rfl
  · have htot : (gfMul (gfMul v0 2) 11 ^^^ gfMul (gfMul v0 1) 13 ^^^ gfMul (gfMul v0 1) 9 ^^^ gfMul (gfMul v0 3) 14) ^^^ (gfMul (gfMul v1 3) 11 ^^^ gfMul (gfMul v1 2) 13 ^^^ gfMul (gfMul v1 1) 9 ^^^ gfMul (gfMul v1 1) 14) ^^^ (gfMul (gfMul v2 1) 11 ^^^ gfMul (gfMul v2 3) 13 ^^^ gfMul (gfMul v2 2) 9 ^^^ gfMul (gfMul v2 1) 14) ^^^ (gfMul (gfMul v3 1) 11 ^^^ gfMul (gfMul v3 1) 13 ^^^ gfMul (gfMul v3 3) 9 ^^^ gfMul (gfMul v3 2) 14) = v3 := by
      rw [mixS30 v0 h0, mixS31 v1 h1, mixS32 v2 h2, mixS33 v3 h3]
      simp
    conv_rhs => rw [← htot]
    ac_rfl

/-! ## Key expansion and the block cipher  (crypto/aes/block.py) -/

/-- Well-formed byte string: every element is a byte value. -/
def Bytes (l : List Nat) : Prop := ∀ b ∈ l, b < 256

instance decidableBytes (l : List Nat) : Decidable (Bytes l) :=
  List.decidableBAll (fun b => b < 256) l

/-- Well-formed 16-byte state. -/
def StateOk (s : List Nat) : Prop := s.length = 16 ∧ Bytes s

/-- `get_word`: the 4-byte word at index `i`. -/
def getWord (s : List Nat) (i : Nat) : List Nat := (s.drop (4 * i)).take 4

/-- `rot_word`: rotate a 4-byte word left. -/
def rotWord : List Nat → List Nat
  | [a, b, c, d] => [b, c, d, a]
  | w => w

/-- `sub_word`: S-box substitution on a word. -/
def subWord (w : List Nat) : List Nat := w.map sbox

/-- `xor_word`: byte-wise XOR of two words. -/
def xorWord (w1 w2 : List Nat) : List Nat := List.zipWith (· ^^^ ·) w1 w2

/-- One iteration of the `expand_key` schedule loop, producing word `i`
(where `i` is the number of words already built) and the updated round
constant `rc`. -/
def ksNext (key : List Nat) (kl : Nat) (ws : List (List Nat)) (rc : Nat) :
    List Nat × Nat :=
  let i := ws.length
  if i < kl then (getWord key i, rc)
  else if i % kl = 0 then
    let w := xorWord (subWord (rotWord (ws.getD (i - 1) []))) (ws.getD (i - kl) [])
    ((match w with | a :: t => (a ^^^ rc) :: t | [] => []), gfMul rc 2)
  else if kl > 6 ∧ i % kl = 4 then
    (xorWord (subWord (ws.getD (i - 1) [])) (ws.getD (i - kl) []), rc)
  else (xorWord (ws.getD (i - 1) []) (ws.getD (i - kl) []), rc)

/-- The first `n` words of the key schedule together with the round
constant state (`rc` starts at 1). -/
def ksWords (key : List Nat) (kl : Nat) : Nat → List (List Nat) × Nat
  | 0 => ([], 1)
  | n + 1 =>
    let p := ksWords key kl n
    let q := ksNext key kl p.1 p.2
    (p.1 ++ [q.1], q.2)

/-- `expand_key`: the list of `rounds + 1` 16-byte round keys. -/
def expand_key (key : List Nat) (rounds : Nat) : List (List Nat) :=
  let kl := key.length / 4
  let ws := (ksWords key kl (4 * (rounds + 1))).1
  (List.range (rounds + 1)).map fun i => ((ws.drop (4 * i)).take 4).flatten

/-- The middle rounds of `encrypt_block` (`for i in range(1, rounds)`). -/
def encryptRounds (rks : List (List Nat)) (s : List Nat) : List Nat :=
  rks.foldl (fun st k => addRoundKey (mixColumns (shiftRows (subBytes st))) k) s

/-- `encrypt_block`. -/
def encrypt_block (key block : List Nat) (rounds : Nat) : List Nat :=
  let rks := expand_key key rounds
  addRoundKey
    (shiftRows (subBytes
      (encryptRounds ((rks.drop 1).take (rounds - 1)) (addRoundKey block (rks.getD 0 [])))))
    (rks.getD rounds [])

/-- The middle rounds of `decrypt_block`. -/
def decryptRounds (rks : List (List Nat)) (s : List Nat) : List Nat :=
  rks.foldl (fun st k => subBytesInv (shiftRowsInv (mixColumnsInv (addRoundKey st k)))) s

/-- `decrypt_block` (round keys reversed). -/
def decrypt_block (key block : List Nat) (rounds : Nat) : List Nat :=
  let rks := (expand_key key rounds).reverse
  addRoundKey
    (decryptRounds ((rks.drop 1).take (rounds - 1))
      (subBytesInv (shiftRowsInv (addRoundKey block (rks.getD 0 [])))))
    (rks.getD rounds [])

theorem getD_mem {α : Type} (l : List α) (i : Nat) (d : α) (h : i < l.length) :
    l.getD i d ∈ l := by
  rw [List.getD_eq_getElem l d h]
  exact List.getElem_mem h

theorem getD_append_singleton {α : Type} (L : List α) (x d : α) :
    (L ++ [x]).getD L.length d = x := by
  induction L with
  | nil => rfl
  | cons a t ih => simp [ih]

theorem sboxInv_lt : ∀ b < 256, sboxInv b < 256 := by decide

theorem subBytes_ok {s : List Nat} (h : StateOk s) : StateOk (subBytes s) := by
  obtain ⟨hl, hb⟩ := h
  refine ⟨by simpa [subBytes] using hl, ?_⟩
  intro b hbm
  obtain ⟨a, ha, rfl⟩ := List.mem_map.mp hbm
  exact sbox_lt a (hb a ha)

theorem subBytesInv_ok {s : List Nat} (h : StateOk s) : StateOk (subBytesInv s) := by
  obtain ⟨hl, hb⟩ := h
  refine ⟨by simpa [subBytesInv] using hl, ?_⟩
  intro b hbm
  obtain ⟨a, ha, rfl⟩ := List.mem_map.mp hbm
  exact sboxInv_lt a (hb a ha)

theorem subBytesInv_subBytes {s : List Nat} (h : StateOk s) :
    subBytesInv (subBytes s) = s := by
  obtain ⟨-, hb⟩ := h
  unfold subBytes subBytesInv
  rw [List.map_map]
  conv_rhs => rw [← List.map_id s]
  apply List.map_congr_left
  intro a ha
  exact sboxInv_sbox a (hb a ha)

theorem exists_sixteen (s : List Nat) (h : s.length = 16) :
    ∃ a0 a1 a2 a3 a4 a5 a6 a7 a8 a9 a10 a11 a12 a13 a14 a15 : Nat,
      s = [a0, a1, a2, a3, a4, a5, a6, a7, a8, a9, a10, a11, a12, a13, a14, a15] := by
  obtain ⟨a0, s, rfl⟩ := List.exists_of_length_succ s h
  simp only [List.length_cons, Nat.succ_inj] at h
  obtain ⟨a1, s, rfl⟩ := List.exists_of_length_succ s h
  simp only [List.length_cons, Nat.succ_inj] at h
  obtain ⟨a2, s, rfl⟩ := List.exists_of_length_succ s h
  simp only [List.length_cons, Nat.succ_inj] at h
  obtain ⟨a3, s, rfl⟩ := List.exists_of_length_succ s h
  simp only [List.length_cons, Nat.succ_inj] at h
  obtain ⟨a4, s, rfl⟩ := List.exists_of_length_succ s h
  simp only [List.length_cons, Nat.succ_inj] at h
  obtain ⟨a5, s, rfl⟩ := List.exists_of_length_succ s h
  simp only [List.length_cons, Nat.succ_inj] at h
  obtain ⟨a6, s, rfl⟩ := List.exists_of_length_succ s h
  simp only [List.length_cons, Nat.succ_inj] at h
  obtain ⟨a7, s, rfl⟩ := List.exists_of_length_succ s h
  simp only [List.length_cons, Nat.succ_inj] at h
  obtain ⟨a8, s, rfl⟩ := List.exists_of_length_succ s h
  simp only [List.length_cons, Nat.succ_inj] at h
  obtain ⟨a9, s, rfl⟩ := List.exists_of_length_succ s h
  simp only [List.length_cons, Nat.succ_inj] at h
  obtain ⟨a10, s, rfl⟩ := List.exists_of_length_succ s h
  simp only [List.length_cons, Nat.succ_inj] at h
  obtain ⟨a11, s, rfl⟩ := List.exists_of_length_succ s h
  simp only [List.length_cons, Nat.succ_inj] at h
  obtain ⟨a12, s, rfl⟩ := List.exists_of_length_succ s h
  simp only [List.length_cons, Nat.succ_inj] at h
  obtain ⟨a13, s, rfl⟩ := List.exists_of_length_succ s h
  simp only [List.length_cons, Nat.succ_inj] at h
  obtain ⟨a14, s, rfl⟩ := List.exists_of_length_succ s h
  simp only [List.length_cons, Nat.succ_inj] at h
  obtain ⟨a15, s, rfl⟩ := List.exists_of_length_succ s h
  simp only [List.length_cons, Nat.succ_inj] at h
  rw [List.length_eq_zero] at h
  subst h
  exact ⟨a0, a1, a2, a3, a4, a5, a6, a7, a8, a9, a10, a11, a12, a13, a14, a15, rfl⟩

theorem shiftRows_ok {s : List Nat} (h : StateOk s) : StateOk (shiftRows s) := by
  obtain ⟨hl, hb⟩ := h
  obtain ⟨a0, a1, a2, a3, a4, a5, a6, a7, a8, a9, a10, a11, a12, a13, a14, a15, rfl⟩ :=
    exists_sixteen s hl
  refine ⟨rfl, ?_⟩
  intro b hbm
  apply hb
  simp only [shiftRows, List.mem_cons, List.not_mem_nil, or_false] at hbm ⊢
  tauto

theorem shiftRowsInv_ok {s : List Nat} (h : StateOk s) : StateOk (shiftRowsInv s) := by
  obtain ⟨hl, hb⟩ := h
  obtain ⟨a0, a1, a2, a3, a4, a5, a6, a7, a8, a9, a10, a11, a12, a13, a14, a15, rfl⟩ :=
    exists_sixteen s hl
  refine ⟨rfl, ?_⟩
  intro b hbm
  apply hb
  simp only [shiftRowsInv, List.mem_cons, List.not_mem_nil, or_false] at hbm ⊢
  tauto

theorem shiftRowsInv_shiftRows_ok {s : List Nat} (h : StateOk s) :
    shiftRowsInv (shiftRows s) = s := by
  obtain ⟨hl, -⟩ := h
  obtain ⟨a0, a1, a2, a3, a4, a5, a6, a7, a8, a9, a10, a11, a12, a13, a14, a15, rfl⟩ :=
    exists_sixteen s hl
  exact shiftRowsInv_shiftRows a0 a1 a2 a3 a4 a5 a6 a7 a8 a9 a10 a11 a12 a13 a14 a15

theorem xor4_lt {a b c d : Nat} (ha : a < 256) (hb : b < 256) (hc : c < 256)
    (hd : d < 256) : a ^^^ b ^^^ c ^^^ d < 256 := by
  have h1 : a ^^^ b < 256 := Nat.xor_lt_two_pow (n := 8) ha hb
  have h2 : a ^^^ b ^^^ c < 256 := Nat.xor_lt_two_pow (n := 8) h1 hc
  exact Nat.xor_lt_two_pow (n := 8) h2 hd

theorem transform4_any (v0 v1 v2 v3 : Nat) (m : List Nat) :
    transform [v0, v1, v2, v3] m =
      [0 ^^^ gfMul v0 (m.getD 0 0) ^^^ gfMul v1 (m.getD 1 0) ^^^
         gfMul v2 (m.getD 2 0) ^^^ gfMul v3 (m.getD 3 0),
       0 ^^^ gfMul v0 (m.getD 4 0) ^^^ gfMul v1 (m.getD 5 0) ^^^
         gfMul v2 (m.getD 6 0) ^^^ gfMul v3 (m.getD 7 0),
       0 ^^^ gfMul v0 (m.getD 8 0) ^^^ gfMul v1 (m.getD 9 0) ^^^
         gfMul v2 (m.getD 10 0) ^^^ gfMul v3 (m.getD 11 0),
       0 ^^^ gfMul v0 (m.getD 12 0) ^^^ gfMul v1 (m.getD 13 0) ^^^
         gfMul v2 (m.getD 14 0) ^^^ gfMul v3 (m.getD 15 0)] := rfl

theorem transform4_bytes (v0 v1 v2 v3 : Nat) (m : List Nat) (h0 : v0 < 256)
    (h1 : v1 < 256) (h2 : v2 < 256) (h3 : v3 < 256) :
    (transform [v0, v1, v2, v3] m).length = 4 ∧
      Bytes (transform [v0, v1, v2, v3] m) := by
  rw [transform4_any v0 v1 v2 v3 m]
  refine ⟨rfl, ?_⟩
  intro b hbm
  simp only [List.mem_cons, List.not_mem_nil, or_false] at hbm
  rcases hbm with rfl | rfl | rfl | rfl <;>
    (rw [Nat.zero_xor]
     exact xor4_lt (gfMul_lt _ _ h0) (gfMul_lt _ _ h1) (gfMul_lt _ _ h2) (gfMul_lt _ _ h3))

theorem mixColumnsWith_ok {s : List Nat} (m : List Nat) (h : StateOk s) :
    StateOk (mixColumnsWith m s) := by
  obtain ⟨hl, hb⟩ := h
  obtain ⟨a0, a1, a2, a3, a4, a5, a6, a7, a8, a9, a10, a11, a12, a13, a14, a15, rfl⟩ :=
    exists_sixteen s hl
  have hx : ∀ b ∈ ([a0, a1, a2, a3, a4, a5, a6, a7, a8, a9, a10, a11, a12, a13, a14, a15] :
      List Nat), b < 256 := hb
  simp only [List.forall_mem_cons, List.forall_mem_nil, and_true] at hx
  obtain ⟨h0, h1, h2, h3, h4, h5, h6, h7, h8, h9, h10, h11, h12, h13, h14, h15, -⟩ := hx
  have t1 := transform4_bytes a0 a1 a2 a3 m h0 h1 h2 h3
  have t2 := transform4_bytes a4 a5 a6 a7 m h4 h5 h6 h7
  have t3 := transform4_bytes a8 a9 a10 a11 m h8 h9 h10 h11
  have t4 := transform4_bytes a12 a13 a14 a15 m h12 h13 h14 h15
  rw [show mixColumnsWith m
      [a0, a1, a2, a3, a4, a5, a6, a7, a8, a9, a10, a11, a12, a13, a14, a15] =
      transform [a0, a1, a2, a3] m ++ transform [a4, a5, a6, a7] m ++
      transform [a8, a9, a10, a11] m ++ transform [a12, a13, a14, a15] m from rfl]
  constructor
  · simp [List.length_append, t1.1, t2.1, t3.1, t4.1]
  · intro b hbm
    simp only [List.mem_append] at hbm
    rcases hbm with ((hm | hm) | hm) | hm
    · exact t1.2 b hm
    · exact t2.2 b hm
    · exact t3.2 b hm
    · exact t4.2 b hm

theorem mixColumnsWith_sixteen (m : List Nat)
    (a0 a1 a2 a3 a4 a5 a6 a7 a8 a9 a10 a11 a12 a13 a14 a15 : Nat) :
    mixColumnsWith m
      [a0, a1, a2, a3, a4, a5, a6, a7, a8, a9, a10, a11, a12, a13, a14, a15] =
      transform [a0, a1, a2, a3] m ++ transform [a4, a5, a6, a7] m ++
      transform [a8, a9, a10, a11] m ++ transform [a12, a13, a14, a15] m := rfl

theorem mixColumnsInv_mixColumns {s : List Nat} (h : StateOk s) :
    mixColumnsInv (mixColumns s) = s := by
  obtain ⟨hl, hb⟩ := h
  obtain ⟨a0, a1, a2, a3, a4, a5, a6, a7, a8, a9, a10, a11, a12, a13, a14, a15, rfl⟩ :=
    exists_sixteen s hl
  have hx : ∀ b ∈ ([a0, a1, a2, a3, a4, a5, a6, a7, a8, a9, a10, a11, a12, a13, a14, a15] :
      List Nat), b < 256 := hb
  simp only [List.forall_mem_cons, List.forall_mem_nil, and_true] at hx
  obtain ⟨h0, h1, h2, h3, h4, h5, h6, h7, h8, h9, h10, h11, h12, h13, h14, h15, -⟩ := hx
  unfold mixColumns mixColumnsInv
  rw [mixColumnsWith_sixteen, transform4_mix a0 a1 a2 a3, transform4_mix a4 a5 a6 a7,
    transform4_mix a8 a9 a10 a11, transform4_mix a12 a13 a14 a15]
  simp only [List.cons_append, List.nil_append]
  rw [mixColumnsWith_sixteen, transform_mix_col a0 a1 a2 a3 h0 h1 h2 h3,
    transform_mix_col a4 a5 a6 a7 h4 h5 h6 h7, transform_mix_col a8 a9 a10 a11 h8 h9 h10 h11,
    transform_mix_col a12 a13 a14 a15 h12 h13 h14 h15]
  simp only [List.cons_append, List.nil_append]

theorem exists_four (w : List Nat) (h : w.length = 4) :
    ∃ a b c d : Nat, w = [a, b, c, d] := by
  obtain ⟨a, w, rfl⟩ := List.exists_of_length_succ w h
  simp only [List.length_cons, Nat.succ_inj] at h
  obtain ⟨b, w, rfl⟩ := List.exists_of_length_succ w h
  simp only [List.length_cons, Nat.succ_inj] at h
  obtain ⟨c, w, rfl⟩ := List.exists_of_length_succ w h
  simp only [List.length_cons, Nat.succ_inj] at h
  obtain ⟨d, w, rfl⟩ := List.exists_of_length_succ w h
  simp only [List.length_cons, Nat.succ_inj] at h
  rw [List.length_eq_zero] at h
  subst h
  exact ⟨a, b, c, d, rfl⟩

/-- Well-formed 4-byte word. -/
def WordOk (w : List Nat) : Prop := w.length = 4 ∧ Bytes w

theorem xorWord_ok {w1 w2 : List Nat} (h1 : WordOk w1) (h2 : WordOk w2) :
    WordOk (xorWord w1 w2) := by
  constructor
  · simp [xorWord, List.length_zipWith, h1.1, h2.1]
  · intro b hbm
    simp only [xorWord] at hbm
    rw [List.mem_iff_getElem] at hbm
    obtain ⟨i, hi, rfl⟩ := hbm
    have e1 := h1.1
    have e2 := h2.1
    rw [List.length_zipWith, e1, e2] at hi
    rw [List.getElem_zipWith]
    exact Nat.xor_lt_two_pow (n := 8)
      (h1.2 _ (List.getElem_mem (by omega))) (h2.2 _ (List.getElem_mem (by omega)))

theorem subWord_ok {w : List Nat} (h : WordOk w) : WordOk (subWord w) := by
  refine ⟨by simp [subWord, h.1], ?_⟩
  intro b hbm
  obtain ⟨a, ha, rfl⟩ := List.mem_map.mp hbm
  exact sbox_lt a (h.2 a ha)

theorem rotWord_ok {w : List Nat} (h : WordOk w) : WordOk (rotWord w) := by
  obtain ⟨a, b, c, d, rfl⟩ := exists_four w h.1
  refine ⟨rfl, ?_⟩
  intro x hx
  apply h.2
  simp only [rotWord, List.mem_cons, List.not_mem_nil, or_false] at hx ⊢
  tauto

theorem getWord_ok {key : List Nat} {kl i : Nat} (hkl : key.length = 4 * kl)
    (hkb : Bytes key) (hi : i < kl) : WordOk (getWord key i) := by
  constructor
  · simp only [getWord, List.length_take, List.length_drop, hkl]
    omega
  · intro b hbm
    exact hkb b (List.mem_of_mem_drop (List.mem_of_mem_take hbm))

theorem ksNext_ok {key : List Nat} {kl : Nat} {ws : List (List Nat)} {rc : Nat}
    (hkl : key.length = 4 * kl) (hkb : Bytes key) (hkl0 : 0 < kl)
    (hws : ∀ w ∈ ws, WordOk w) (hrc : rc < 256) :
    WordOk (ksNext key kl ws rc).1 ∧ (ksNext key kl ws rc).2 < 256 := by
  simp only [ksNext]
  by_cases hlt : ws.length < kl
  · rw [if_pos hlt]
    exact ⟨getWord_ok hkl hkb hlt, hrc⟩
  · rw [if_neg hlt]
    have hge : kl ≤ ws.length := Nat.le_of_not_lt hlt
    have hprev : ws.getD (ws.length - 1) [] ∈ ws := getD_mem ws _ [] (by omega)
    have hback : ws.getD (ws.length - kl) [] ∈ ws := getD_mem ws _ [] (by omega)
    have hpok := hws _ hprev
    have hbok := hws _ hback
    by_cases hmod : ws.length % kl = 0
    · rw [if_pos hmod]
      have hw := xorWord_ok (subWord_ok (rotWord_ok hpok)) hbok
      obtain ⟨a, b, c, d, he⟩ := exists_four _ hw.1
      rw [he]
      have hmem : ∀ x ∈ ([a, b, c, d] : List Nat), x < 256 := he ▸ hw.2
      simp only [List.forall_mem_cons, List.forall_mem_nil, and_true] at hmem
      obtain ⟨ha, hb, hc, hd, -⟩ := hmem
      refine ⟨⟨rfl, ?_⟩, gfMul_lt rc 2 hrc⟩
      intro x hx
      simp only [List.mem_cons, List.not_mem_nil, or_false] at hx
      rcases hx with rfl | rfl | rfl | rfl
      · exact Nat.xor_lt_two_pow (n := 8) ha hrc
      · exact hb
      · exact hc
      · exact hd
    · rw [if_neg hmod]
      by_cases hmod4 : kl > 6 ∧ ws.length % kl = 4
      · rw [if_pos hmod4]
        exact ⟨xorWord_ok (subWord_ok hpok) hbok, hrc⟩
      · rw [if_neg hmod4]
        exact ⟨xorWord_ok hpok hbok, hrc⟩

theorem ksWords_ok {key : List Nat} {kl : Nat} (hkl : key.length = 4 * kl)
    (hkb : Bytes key) (hkl0 : 0 < kl) : ∀ n : Nat,
    (ksWords key kl n).1.length = n ∧
    (∀ w ∈ (ksWords key kl n).1, WordOk w) ∧ (ksWords key kl n).2 < 256 := by
  intro n
  induction n with
  | zero =>
    refine ⟨rfl, by simp [ksWords], ?_⟩
    show (1 : Nat) < 256
    decide
  | succ n ih =>
    obtain ⟨hlen, hwords, hrc⟩ := ih
    have hnext := ksNext_ok hkl hkb hkl0 hwords hrc
    refine ⟨?_, ?_, ?_⟩
    · show ((ksWords key kl n).1 ++ [(ksNext key kl (ksWords key kl n).1
        (ksWords key kl n).2).1]).length = n + 1
      simp [hlen]
    · intro w hw
      have hw' : w ∈ (ksWords key kl n).1 ++ [(ksNext key kl (ksWords key kl n).1
        (ksWords key kl n).2).1] := hw
      rw [List.mem_append] at hw'
      rcases hw' with hw' | hw'
      · exact hwords w hw'
      · rw [List.mem_singleton] at hw'
        rw [hw']
        exact hnext.1
    · exact hnext.2

theorem flatten_four {l : List (List Nat)} (h : ∀ w ∈ l, (w : List Nat).length = 4) :
    l.flatten.length = 4 * l.length := by
  induction l with
  | nil => rfl
  | cons w t ih =>
    simp only [List.flatten_cons, List.length_append, List.length_cons]
    rw [h w (by simp), ih fun x hx => h x (by simp [hx])]
    ring

theorem expand_key_length (key : List Nat) (rounds : Nat) :
    (expand_key key rounds).length = rounds + 1 := by
  simp [expand_key]

theorem expand_key_ok {key : List Nat} {kl rounds : Nat} (hkl : key.length = 4 * kl)
    (hkb : Bytes key) (hkl0 : 0 < kl) :
    ∀ rk ∈ expand_key key rounds, StateOk rk := by
  intro rk hrk
  obtain ⟨hlen, hwords, -⟩ := ksWords_ok hkl hkb hkl0 (4 * (rounds + 1))
  have hkl4 : key.length / 4 = kl := by omega
  simp only [expand_key, hkl4, List.mem_map, List.mem_range] at hrk
  obtain ⟨i, hi, rfl⟩ := hrk
  set ws := (ksWords key kl (4 * (rounds + 1))).1 with hws
  have hchunk : ∀ w ∈ (ws.drop (4 * i)).take 4, WordOk w := fun w hw =>
    hwords w (List.mem_of_mem_drop (List.mem_of_mem_take hw))
  have hchunklen : ((ws.drop (4 * i)).take 4).length = 4 := by
    simp only [List.length_take, List.length_drop, hlen]
    omega
  constructor
  · have h1 := flatten_four fun w hw => (hchunk w hw).1
    rw [hchunklen] at h1
    exact h1
  · intro b hbm
    rw [List.mem_flatten] at hbm
    obtain ⟨w, hw, hbw⟩ := hbm
    exact (hchunk w hw).2 b hbw
theorem addRoundKey_ok {s k : List Nat} (hs : StateOk s) (hk : StateOk k) :
    StateOk (addRoundKey s k) := by
  constructor
  · simp [addRoundKey, List.length_zipWith, hs.1, hk.1]
  · intro b hbm
    simp only [addRoundKey] at hbm
    rw [List.mem_iff_getElem] at hbm
    obtain ⟨i, hi, rfl⟩ := hbm
    have e1 := hs.1
    have e2 := hk.1
    rw [List.length_zipWith, e1, e2] at hi
    rw [List.getElem_zipWith]
    exact Nat.xor_lt_two_pow (n := 8)
      (hs.2 _ (List.getElem_mem (by omega))) (hk.2 _ (List.getElem_mem (by omega)))

theorem mixColumns_ok {s : List Nat} (h : StateOk s) : StateOk (mixColumns s) :=
  mixColumnsWith_ok AES_MIXING_MATRIX h

theorem mixColumnsInv_ok {s : List Nat} (h : StateOk s) : StateOk (mixColumnsInv s) :=
  mixColumnsWith_ok AES_MIXING_MATRIX_INVERSE h

theorem encStep_ok {s k : List Nat} (hs : StateOk s) (hk : StateOk k) :
    StateOk (addRoundKey (mixColumns (shiftRows (subBytes s))) k) :=
  addRoundKey_ok (mixColumns_ok (shiftRows_ok (subBytes_ok hs))) hk

theorem encryptRounds_ok {ks : List (List Nat)} {s : List Nat}
    (hks : ∀ k ∈ ks, StateOk k) (hs : StateOk s) : StateOk (encryptRounds ks s) := by
  induction ks generalizing s with
  | nil => exact hs
  | cons k ks ih =>
    show StateOk (encryptRounds ks (addRoundKey (mixColumns (shiftRows (subBytes s))) k))
    exact ih (fun k' hk' => hks k' (by simp [hk'])) (encStep_ok hs (hks k (by simp)))

theorem round_inv {s k : List Nat} (hs : StateOk s) (hk : StateOk k) :
    subBytesInv (shiftRowsInv (mixColumnsInv
      (addRoundKey (addRoundKey (mixColumns (shiftRows (subBytes s))) k) k))) = s := by
  rw [addRoundKey_addRoundKey _ k
    (by rw [(mixColumns_ok (shiftRows_ok (subBytes_ok hs))).1, hk.1]),
    mixColumnsInv_mixColumns (shiftRows_ok (subBytes_ok hs)),
    shiftRowsInv_shiftRows_ok (subBytes_ok hs), subBytesInv_subBytes hs]

theorem decryptRounds_encryptRounds {ks : List (List Nat)} {s : List Nat}
    (hks : ∀ k ∈ ks, StateOk k) (hs : StateOk s) :
    decryptRounds ks.reverse (encryptRounds ks s) = s := by
  induction ks generalizing s with
  | nil => rfl
  | cons k ks ih =>
    have hstep : StateOk (addRoundKey (mixColumns (shiftRows (subBytes s))) k) :=
      encStep_ok hs (hks k (by simp))
    show decryptRounds (k :: ks).reverse
      (encryptRounds ks (addRoundKey (mixColumns (shiftRows (subBytes s))) k)) = s
    rw [List.reverse_cons]
    unfold decryptRounds
    rw [List.foldl_append]
    have hmid := ih (fun k' hk' => hks k' (by simp [hk'])) hstep
    unfold decryptRounds at hmid
    rw [hmid]
    simpa using round_inv hs (hks k (by simp))

theorem take_length_append {α : Type} (l1 l2 : List α) (n : Nat) (h : l1.length = n) :
    (l1 ++ l2).take n = l1 := by
  subst h
  exact List.take_left l1 l2

theorem getD_append_singleton' {α : Type} (L : List α) (x d : α) (n : Nat)
    (h : L.length = n) : (L ++ [x]).getD n d = x := by
  subst h
  exact getD_append_singleton L x d

/-- C4 round-trip core: on well-formed inputs, `decrypt_block` inverts
`encrypt_block` for any round-key material produced by `expand_key`. -/
theorem decrypt_encrypt_block {key block : List Nat} {kl rounds : Nat}
    (hkl : key.length = 4 * kl) (hkb : Bytes key) (hkl0 : 0 < kl)
    (hr : 1 ≤ rounds) (hb : StateOk block) :
    decrypt_block key (encrypt_block key block rounds) rounds = block := by
  have hok := @expand_key_ok key kl rounds hkl hkb hkl0
  have hlen := expand_key_length key rounds
  obtain ⟨m, rfl⟩ : ∃ m, rounds = m + 1 := ⟨rounds - 1, by omega⟩
  obtain ⟨k0, rest, hre⟩ := List.exists_of_length_succ (expand_key key (m + 1)) hlen
  have hrest : rest.length = m + 1 := by
    have := hlen
    rw [hre] at this
    simpa using this
  obtain ⟨klast, Lrev, hrev⟩ := List.exists_of_length_succ rest.reverse (by simpa using hrest)
  have hLrev : Lrev.length = m := by
    have : rest.reverse.length = m + 1 := by simpa using hrest
    rw [hrev] at this
    simpa using this
  have hrest2 : rest = Lrev.reverse ++ [klast] := by
    rw [← List.reverse_reverse rest, hrev]
    simp
  set L := Lrev.reverse with hL
  have hLlen : L.length = m := by simp [hL, hLrev]
  have hrks : expand_key key (m + 1) = k0 :: (L ++ [klast]) := by rw [hre, hrest2]
  have hmem : ∀ k ∈ expand_key key (m + 1), StateOk k := hok
  rw [hrks] at hmem
  have hk0 : StateOk k0 := hmem k0 (by simp)
  have hklast : StateOk klast := hmem klast (by simp)
  have hLok : ∀ k ∈ L, StateOk k := fun k hk => hmem k (by simp [hk])
  have hrevrks : (expand_key key (m + 1)).reverse = klast :: (L.reverse ++ [k0]) := by
    rw [hrks]
    simp
  have hs0 : StateOk (addRoundKey block k0) := addRoundKey_ok hb hk0
  have hs1 : StateOk (encryptRounds L (addRoundKey block k0)) := encryptRounds_ok hLok hs0
  simp only [encrypt_block, decrypt_block]
  rw [hrevrks, hrks]
  simp only [List.getD_cons_zero, List.getD_cons_succ, List.drop_succ_cons,
    List.drop_zero, Nat.add_sub_cancel]
  rw [take_length_append L [klast] m hLlen,
    take_length_append L.reverse [k0] m (by simp [hLlen]),
    getD_append_singleton' L klast [] m hLlen,
    getD_append_singleton' L.reverse k0 [] m (by simp [hLlen])]
  rw [addRoundKey_addRoundKey _ klast
    (by rw [(shiftRows_ok (subBytes_ok hs1)).1, hklast.1]),
    shiftRowsInv_shiftRows_ok (subBytes_ok hs1), subBytesInv_subBytes hs1,
    decryptRounds_encryptRounds hLok hs0,
    addRoundKey_addRoundKey block k0 (by rw [hb.1, hk0.1])]

/-- C4: for every key of length 16, 24, or 32 bytes with the matching
round count 10, 12, or 14, and every 16-byte block of bytes,
`decrypt_block(k, encrypt_block(k, b)) == b`. -/
theorem claim_C4_aes_block_roundtrip (key block : List Nat) (rounds : Nat)
    (hkr : key.length = 16 ∧ rounds = 10 ∨ key.length = 24 ∧ rounds = 12 ∨
      key.length = 32 ∧ rounds = 14)
    (hkb : Bytes key) (hbl : block.length = 16) (hbb : Bytes block) :
    decrypt_block key (encrypt_block key block rounds) rounds = block := by
  obtain ⟨kl, hkl, hkl0, hr⟩ : ∃ kl, key.length = 4 * kl ∧ 0 < kl ∧ 1 ≤ rounds := by
    rcases hkr with ⟨h, hr⟩ | ⟨h, hr⟩ | ⟨h, hr⟩
    exacts [⟨4, by omega⟩, ⟨6, by omega⟩, ⟨8, by omega⟩]
  exact decrypt_encrypt_block hkl hkb hkl0 hr ⟨hbl, hbb⟩

/-- Witness for C4 at the FIPS-197 example key and block. -/
theorem claim_C4_witness :
    decrypt_block
      [43, 126, 21, 22, 40, 174, 210, 166, 171, 247, 21, 136, 9, 207, 79, 60]
      (encrypt_block
        [43, 126, 21, 22, 40, 174, 210, 166, 171, 247, 21, 136, 9, 207, 79, 60]
        [107, 193, 190, 226, 46, 64, 159, 150, 233, 61, 126, 17, 115, 147, 23, 42] 10) 10 =
      [107, 193, 190, 226, 46, 64, 159, 150, 233, 61, 126, 17, 115, 147, 23, 42] :=
  claim_C4_aes_block_roundtrip _ _ 10 (by decide) (by decide) (by decide) (by decide)

/-- C5: AES-128 known answer S1: encrypting block 6bc1bee22e409f96e93d7e117393172a
under key 2b7e151628aed2a6abf7158809cf4f3c with 10 rounds yields
3ad77bb40d7a3660a89ecaf32466ef97. -/
theorem claim_C5_known_answer :
    encrypt_block
      [43, 126, 21, 22, 40, 174, 210, 166, 171, 247, 21, 136, 9, 207, 79, 60]
      [107, 193, 190, 226, 46, 64, 159, 150, 233, 61, 126, 17, 115, 147, 23, 42] 10 =
      [58, 215, 123, 180, 13, 122, 54, 96, 168, 158, 202, 243, 36, 102, 239, 151] := by decide

/-! ## CBC mode  (crypto/aes/modes.py) and the key object  (crypto/aes/key.py) -/

/-- Per-block loop of `cbc_encrypt`: returns (ciphertext, final chain).
`n` is the number of 16-byte blocks left. -/
def cbcEncryptChunks (key : List Nat) (rounds : Nat) :
    Nat → List Nat → List Nat → List Nat × List Nat
  | 0, chain, _ => ([], chain)
  | n + 1, chain, msg =>
    let e := encrypt_block key (addRoundKey chain (msg.take 16)) rounds
    let rest := cbcEncryptChunks key rounds n e (msg.drop 16)
    (e ++ rest.1, rest.2)

/-- `cbc_encrypt`: returns (ciphertext, last chain block). -/
def cbc_encrypt (message iv key : List Nat) (rounds : Nat) : List Nat × List Nat :=
  cbcEncryptChunks key rounds (message.length / 16) iv message

/-- Per-block loop of `cbc_decrypt`: returns (plaintext, final vector). -/
def cbcDecryptChunks (key : List Nat) (rounds : Nat) :
    Nat → List Nat → List Nat → List Nat × List Nat
  | 0, vector, _ => ([], vector)
  | n + 1, vector, cr =>
    let p := addRoundKey (decrypt_block key (cr.take 16) rounds) vector
    let rest := cbcDecryptChunks key rounds n (cr.take 16) (cr.drop 16)
    (p ++ rest.1, rest.2)

/-- `cbc_decrypt`: returns (plaintext, last input cipher block). -/
def cbc_decrypt (crypto iv key : List Nat) (rounds : Nat) : List Nat × List Nat :=
  cbcDecryptChunks key rounds (crypto.length / 16) iv crypto

/-- Python's `l[:-p]` for a nonnegative `p`: empty when `p = 0`, else all
but the trailing `p` elements. -/
def sliceToNeg (l : List Nat) (p : Nat) : List Nat :=
  if p = 0 then [] else l.take (l.length - p)

/-- The AES `Key` object: master key, current iv, round count. -/
structure Key where
  key : List Nat
  iv : List Nat
  rounds : Nat
  deriving DecidableEq

/-- `Key.__init__`: the round count is derived from the key length
(16 → 10, 24 → 12, 32 → 14; other lengths are rejected upstream). -/
def mkKey (key iv : List Nat) : Key :=
  ⟨key, iv, match key.length with
    | 16 => 10
    | 24 => 12
    | 32 => 14
    | _ => 0⟩

/-- `Key.copy`: a new key object with the same key and iv. -/
def Key.copy (k : Key) : Key := mkKey k.key k.iv

/-- `Key.encrypt`: pad with `p = 16 - len % 16` bytes of value `p`,
CBC-encrypt, store the final chain as the new iv. -/
def Key.encrypt (k : Key) (message : List Nat) : List Nat × Key :=
  let p := 16 - message.length % 16
  let r := cbc_encrypt (message ++ List.replicate p p) k.iv k.key k.rounds
  (r.1, ⟨k.key, r.2, k.rounds⟩)

/-- `Key.decrypt`: CBC-decrypt, store the final vector as the new iv, and
strip `message[-1]` trailing bytes (`message[:-padding_length]`). -/
def Key.decrypt (k : Key) (cipher : List Nat) : List Nat × Key :=
  let r := cbc_decrypt cipher k.iv k.key k.rounds
  (sliceToNeg r.1 (r.1.getD (r.1.length - 1) 0), ⟨k.key, r.2, k.rounds⟩)

/-- `Key.to_bytes`: `len(key):1 ‖ key ‖ iv`. -/
def Key.to_bytes (k : Key) : List Nat := k.key.length :: (k.key ++ k.iv)

/-- `Key.from_bytes`: read the key length byte, then the key, then 16
bytes of iv. -/
def Key.from_bytes (data : List Nat) : Key :=
  let kl := data.getD 0 0
  mkKey ((data.drop 1).take kl) ((data.drop (1 + kl)).take 16)

theorem encrypt_block_ok {key block : List Nat} {kl rounds : Nat}
    (hkl : key.length = 4 * kl) (hkb : Bytes key) (hkl0 : 0 < kl)
    (hb : StateOk block) : StateOk (encrypt_block key block rounds) := by
  have hok := @expand_key_ok key kl rounds hkl hkb hkl0
  have hlen := expand_key_length key rounds
  simp only [encrypt_block]
  refine addRoundKey_ok (shiftRows_ok (subBytes_ok (encryptRounds_ok ?_
    (addRoundKey_ok hb (hok _ (getD_mem _ 0 [] (by omega))))))) (hok _ (getD_mem _ rounds [] (by omega)))
  intro k hk
  exact hok k (List.mem_of_mem_drop (List.mem_of_mem_take hk))

theorem ark_cancel_left : ∀ (c m : List Nat), c.length = m.length →
    addRoundKey (addRoundKey c m) c = m := by
  intro c
  induction c with
  | nil =>
    intro m hm
    rw [show m = [] from List.length_eq_zero.mp (by simpa using hm.symm)]
    rfl
  | cons a c ih =>
    intro m hm
    cases m with
    | nil => simp at hm
    | cons b m =>
      simp only [addRoundKey, List.zipWith_cons_cons]
      rw [Nat.xor_comm a b, Nat.xor_cancel_right]
      show b :: addRoundKey (addRoundKey c m) c = b :: m
      rw [ih m (by simpa using hm)]

theorem drop_length_append {α : Type} (l1 l2 : List α) (n : Nat) (h : l1.length = n) :
    (l1 ++ l2).drop n = l2 := by
  subst h
  exact List.drop_left l1 l2

theorem cbcEncryptChunks_len {key : List Nat} {kl rounds : Nat}
    (hkl : key.length = 4 * kl) (hkb : Bytes key) (hkl0 : 0 < kl) :
    ∀ (n : Nat) (chain msg : List Nat), StateOk chain → msg.length = 16 * n →
      Bytes msg →
      (cbcEncryptChunks key rounds n chain msg).1.length = 16 * n ∧
      Bytes (cbcEncryptChunks key rounds n chain msg).1 ∧
      StateOk (cbcEncryptChunks key rounds n chain msg).2 := by
  intro n
  induction n with
  | zero => exact fun chain msg hc _ _ => ⟨rfl, by simp [cbcEncryptChunks, Bytes], hc⟩
  | succ n ih =>
    intro chain msg hc hm hmb
    have htake : StateOk (msg.take 16) := by
      constructor
      · rw [List.length_take]
        omega
      · exact fun b hb => hmb b (List.mem_of_mem_take hb)
    have hdrop : (msg.drop 16).length = 16 * n := by
      rw [List.length_drop]
      omega
    have hdb : Bytes (msg.drop 16) := fun b hb => hmb b (List.mem_of_mem_drop hb)
    have he : StateOk (encrypt_block key (addRoundKey chain (msg.take 16)) rounds) :=
      encrypt_block_ok hkl hkb hkl0 (addRoundKey_ok hc htake)
    obtain ⟨ih1, ih2, ih3⟩ := ih _ _ he hdrop hdb
    refine ⟨?_, ?_, ih3⟩
    · show ((encrypt_block key (addRoundKey chain (msg.take 16)) rounds) ++
        (cbcEncryptChunks key rounds n _ (msg.drop 16)).1).length = 16 * (n + 1)
      rw [List.length_append, he.1, ih1]
      ring
    · intro b hb
      have hb' : b ∈ encrypt_block key (addRoundKey chain (msg.take 16)) rounds ++
          (cbcEncryptChunks key rounds n
            (encrypt_block key (addRoundKey chain (msg.take 16)) rounds) (msg.drop 16)).1 := hb
      rw [List.mem_append] at hb'
      rcases hb' with hb' | hb'
      · exact he.2 b hb'
      · exact ih2 b hb'

theorem cbc_chunks_inv {key : List Nat} {kl rounds : Nat}
    (hkl : key.length = 4 * kl) (hkb : Bytes key) (hkl0 : 0 < kl) (hr : 1 ≤ rounds) :
    ∀ (n : Nat) (chain msg : List Nat), StateOk chain → msg.length = 16 * n →
      Bytes msg →
      cbcDecryptChunks key rounds n chain (cbcEncryptChunks key rounds n chain msg).1 =
        (msg, (cbcEncryptChunks key rounds n chain msg).2) := by
  intro n
  induction n with
  | zero =>
    intro chain msg hc hm _
    rw [List.length_eq_zero.mp (by omega : msg.length = 0)]
    rfl
  | succ n ih =>
    intro chain msg hc hm hmb
    have htake : StateOk (msg.take 16) := by
      refine ⟨by rw [List.length_take]; omega, fun b hb => hmb b (List.mem_of_mem_take hb)⟩
    have hdrop : (msg.drop 16).length = 16 * n := by rw [List.length_drop]; omega
    have hdb : Bytes (msg.drop 16) := fun b hb => hmb b (List.mem_of_mem_drop hb)
    have hblk : StateOk (addRoundKey chain (msg.take 16)) := addRoundKey_ok hc htake
    have he : StateOk (encrypt_block key (addRoundKey chain (msg.take 16)) rounds) :=
      encrypt_block_ok hkl hkb hkl0 hblk
    show cbcDecryptChunks key rounds (n + 1) chain
      (encrypt_block key (addRoundKey chain (msg.take 16)) rounds ++
        (cbcEncryptChunks key rounds n _ (msg.drop 16)).1) = _
    set e0 := encrypt_block key (addRoundKey chain (msg.take 16)) rounds with he0
    set rest := (cbcEncryptChunks key rounds n e0 (msg.drop 16)).1 with hrest
    show ((addRoundKey (decrypt_block key ((e0 ++ rest).take 16) rounds) chain) ++
        (cbcDecryptChunks key rounds n ((e0 ++ rest).take 16) ((e0 ++ rest).drop 16)).1,
      (cbcDecryptChunks key rounds n ((e0 ++ rest).take 16) ((e0 ++ rest).drop 16)).2) = _
    rw [take_length_append e0 rest 16 he.1, drop_length_append e0 rest 16 he.1]
    rw [he0]
    rw [decrypt_encrypt_block hkl hkb hkl0 hr hblk]
    rw [ark_cancel_left chain (msg.take 16) (by rw [hc.1, htake.1])]
    rw [← he0, ih e0 (msg.drop 16) he hdrop hdb]
    show (msg.take 16 ++ msg.drop 16, _) = _
    rw [List.take_append_drop]
    rfl

theorem mkKey_rounds {key iv : List Nat}
    (hkl : key.length = 16 ∨ key.length = 24 ∨ key.length = 32) :
    (mkKey key iv).rounds = 10 ∧ key.length = 16 ∨
    (mkKey key iv).rounds = 12 ∧ key.length = 24 ∨
    (mkKey key iv).rounds = 14 ∧ key.length = 32 := by
  rcases hkl with h | h | h <;> simp [mkKey, h]

theorem padded_last {msg : List Nat} {p : Nat} (hp : 1 ≤ p) :
    (msg ++ List.replicate p p).getD ((msg ++ List.replicate p p).length - 1) 0 = p := by
  have hlen : (msg ++ List.replicate p p).length = msg.length + p := by simp
  rw [hlen, show msg.length + p - 1 = msg.length + (p - 1) by omega,
    List.getD_append_right msg _ 0 _ (by omega),
    show msg.length + (p - 1) - msg.length = p - 1 by omega,
    List.getD_eq_getElem _ _ (by simpa using by omega : p - 1 < (List.replicate p p).length),
    List.getElem_replicate]

/-- Well-formed key object: consistent key length and round count,
16-byte iv, byte-valued contents. -/
def KeyOk (k : Key) : Prop :=
  (k.key.length = 16 ∧ k.rounds = 10 ∨ k.key.length = 24 ∧ k.rounds = 12 ∨
    k.key.length = 32 ∧ k.rounds = 14) ∧ Bytes k.key ∧ k.iv.length = 16 ∧ Bytes k.iv

theorem mkKey_ok {key iv : List Nat}
    (hkl : key.length = 16 ∨ key.length = 24 ∨ key.length = 32)
    (hkb : Bytes key) (hiv : iv.length = 16) (hivb : Bytes iv) :
    KeyOk (mkKey key iv) := by
  rcases hkl with h | h | h <;>
    exact ⟨by simp [mkKey, h], hkb, hiv, hivb⟩

/-- Decrypting a fresh encryption recovers the message, and the decrypting
key object ends in exactly the state of the encrypting one. -/
theorem key_encrypt_decrypt {k : Key} (hk : KeyOk k) (msg : List Nat)
    (hmb : Bytes msg) :
    k.decrypt (k.encrypt msg).1 = (msg, (k.encrypt msg).2) := by
  obtain ⟨hkr, hkb, hivl, hivb⟩ := hk
  obtain ⟨kl, hkl4, hkl0, hr⟩ : ∃ kl, k.key.length = 4 * kl ∧ 0 < kl ∧ 1 ≤ k.rounds := by
    rcases hkr with ⟨h, hr⟩ | ⟨h, hr⟩ | ⟨h, hr⟩
    exacts [⟨4, by omega, by omega, by omega⟩, ⟨6, by omega, by omega, by omega⟩,
      ⟨8, by omega, by omega, by omega⟩]
  set r := k.rounds with hrdef
  set p := 16 - msg.length % 16 with hpdef
  have hp1 : 1 ≤ p := by omega
  have hp16 : p ≤ 16 := by omega
  set padded := msg ++ List.replicate p p with hpadded
  set n := msg.length / 16 + 1 with hn
  have hplen : padded.length = 16 * n := by
    simp only [hpadded, List.length_append, List.length_replicate]
    omega
  have hpb : Bytes padded := by
    intro b hb
    rw [hpadded, List.mem_append] at hb
    rcases hb with hb | hb
    · exact hmb b hb
    · rw [List.eq_of_mem_replicate hb]
      omega
  have hiok : StateOk k.iv := ⟨hivl, hivb⟩
  have henc := @cbcEncryptChunks_len k.key kl r hkl4 hkb hkl0 n k.iv padded hiok hplen hpb
  have hdiv : padded.length / 16 = n := by omega
  show Key.decrypt _ (cbc_encrypt padded k.iv k.key r).1 = _
  have hclen : (cbc_encrypt padded k.iv k.key r).1.length = 16 * n := by
    simpa [cbc_encrypt, hdiv] using henc.1
  have hdec : cbc_decrypt (cbc_encrypt padded k.iv k.key r).1 k.iv k.key r =
      (padded, (cbc_encrypt padded k.iv k.key r).2) := by
    show cbcDecryptChunks k.key r ((cbc_encrypt padded k.iv k.key r).1.length / 16) k.iv
      (cbc_encrypt padded k.iv k.key r).1 = _
    rw [hclen, show 16 * n / 16 = n by omega]
    show cbcDecryptChunks k.key r n k.iv
        (cbcEncryptChunks k.key r (padded.length / 16) k.iv padded).1 =
      (padded, (cbcEncryptChunks k.key r (padded.length / 16) k.iv padded).2)
    rw [hdiv]
    exact cbc_chunks_inv hkl4 hkb hkl0 hr n k.iv padded hiok hplen hpb
  show (sliceToNeg (cbc_decrypt (cbc_encrypt padded k.iv k.key r).1 k.iv k.key r).1
      ((cbc_decrypt (cbc_encrypt padded k.iv k.key r).1 k.iv k.key r).1.getD
        ((cbc_decrypt (cbc_encrypt padded k.iv k.key r).1 k.iv k.key r).1.length - 1) 0),
    (⟨k.key, (cbc_decrypt (cbc_encrypt padded k.iv k.key r).1 k.iv k.key r).2, k.rounds⟩ : Key)) =
    (msg, ⟨k.key, (cbc_encrypt padded k.iv k.key r).2, k.rounds⟩)
  rw [hdec]
  have hmsg : sliceToNeg padded (padded.getD (padded.length - 1) 0) = msg := by
    rw [padded_last hp1, sliceToNeg, if_neg (by omega)]
    rw [hpadded]
    have hlp : (msg ++ List.replicate p p).length - p = msg.length := by simp
    rw [hlp]
    exact take_length_append msg _ msg.length rfl
  rw [hmsg]

/-- The key object after an encryption keeps the master key and round
count and stores a well-formed 16-byte iv. -/
theorem key_encrypt_state {k : Key} (hk : KeyOk k) (msg : List Nat)
    (hmb : Bytes msg) :
    KeyOk (k.encrypt msg).2 ∧ (k.encrypt msg).2.key = k.key ∧
      (k.encrypt msg).2.rounds = k.rounds := by
  obtain ⟨hkr, hkb, hivl, hivb⟩ := hk
  obtain ⟨kl, hkl4, hkl0, hr⟩ : ∃ kl, k.key.length = 4 * kl ∧ 0 < kl ∧ 1 ≤ k.rounds := by
    rcases hkr with ⟨h, hr⟩ | ⟨h, hr⟩ | ⟨h, hr⟩
    exacts [⟨4, by omega, by omega, by omega⟩, ⟨6, by omega, by omega, by omega⟩,
      ⟨8, by omega, by omega, by omega⟩]
  set p := 16 - msg.length % 16 with hpdef
  set padded := msg ++ List.replicate p p with hpadded
  set n := msg.length / 16 + 1 with hn
  have hplen : padded.length = 16 * n := by
    simp only [hpadded, List.length_append, List.length_replicate]
    omega
  have hpb : Bytes padded := by
    intro b hb
    rw [hpadded, List.mem_append] at hb
    rcases hb with hb | hb
    · exact hmb b hb
    · rw [List.eq_of_mem_replicate hb]
      omega
  have henc := @cbcEncryptChunks_len k.key kl k.rounds hkl4 hkb hkl0 n k.iv padded
    ⟨hivl, hivb⟩ hplen hpb
  have hdiv : padded.length / 16 = n := by omega
  have hst : StateOk (cbc_encrypt padded k.iv k.key k.rounds).2 := by
    show StateOk (cbcEncryptChunks k.key k.rounds (padded.length / 16) k.iv padded).2
    rw [hdiv]
    exact henc.2.2
  exact ⟨⟨hkr, hkb, hst.1, hst.2⟩, rfl, rfl⟩

/-- C3: for every key of length 16/24/32, every 16-byte iv and every byte
string m, two key objects freshly initialized at (k, iv) satisfy
`K_d.decrypt(K_e.encrypt(m)) == m`: padding of `p = 16 - len(m) % 16`
bytes is added by encrypt and stripped by decrypt. -/
theorem claim_C3_cbc_key_roundtrip (key iv msg : List Nat)
    (hkl : key.length = 16 ∨ key.length = 24 ∨ key.length = 32)
    (hkb : Bytes key) (hiv : iv.length = 16) (hivb : Bytes iv) (hmb : Bytes msg) :
    ((mkKey key iv).decrypt ((mkKey key iv).encrypt msg).1).1 = msg := by
  rw [key_encrypt_decrypt (mkKey_ok hkl hkb hiv hivb) msg hmb]

/-- Witness for C3 with an all-zero 16-byte key and iv and a 3-byte message. -/
theorem claim_C3_witness :
    ((mkKey [0, 0, 0, 0, 0, 0, 0, 0, 0, 0, 0, 0, 0, 0, 0, 0]
        [0, 0, 0, 0, 0, 0, 0, 0, 0, 0, 0, 0, 0, 0, 0, 0]).decrypt
      ((mkKey [0, 0, 0, 0, 0, 0, 0, 0, 0, 0, 0, 0, 0, 0, 0, 0]
          [0, 0, 0, 0, 0, 0, 0, 0, 0, 0, 0, 0, 0, 0, 0, 0]).encrypt [1, 2, 3]).1).1 = [1, 2, 3] :=
  claim_C3_cbc_key_roundtrip _ _ _ (by decide) (by decide) (by decide) (by decide) (by decide)

/-- C9: deserialization inverts serialization of the format
`len(key):1 ‖ key ‖ iv` for every key object built from a key of length
16/24/32 and a 16-byte iv: key, iv and round count are all recovered. -/
theorem claim_C9_serialization_roundtrip (key iv : List Nat)
    (hkl : key.length = 16 ∨ key.length = 24 ∨ key.length = 32) (hiv : iv.length = 16) :
    Key.from_bytes (Key.to_bytes (mkKey key iv)) = mkKey key iv := by
  show mkKey (((key.length :: (key ++ iv)).drop 1).take ((key.length :: (key ++ iv)).getD 0 0))
      (((key.length :: (key ++ iv)).drop (1 + (key.length :: (key ++ iv)).getD 0 0)).take 16) =
    mkKey key iv
  simp only [List.getD_cons_zero, List.drop_succ_cons, List.drop_zero]
  rw [show 1 + key.length = key.length + 1 by omega, List.drop_succ_cons,
    List.take_left, List.drop_left, ← hiv, List.take_length]

/-- Witness for C9 with a 24-byte key. -/
theorem claim_C9_witness :
    Key.from_bytes (Key.to_bytes (mkKey
      [1, 2, 3, 4, 5, 6, 7, 8, 9, 10, 11, 12, 13, 14, 15, 16, 17, 18, 19, 20, 21, 22, 23, 24]
      [9, 9, 9, 9, 9, 9, 9, 9, 9, 9, 9, 9, 9, 9, 9, 9])) = mkKey
      [1, 2, 3, 4, 5, 6, 7, 8, 9, 10, 11, 12, 13, 14, 15, 16, 17, 18, 19, 20, 21, 22, 23, 24]
      [9, 9, 9, 9, 9, 9, 9, 9, 9, 9, 9, 9, 9, 9, 9, 9] :=
  claim_C9_serialization_roundtrip _ _ (by decide) (by decide)

/-- C10: on a non-empty ciphertext that is a multiple of 16 bytes,
`Key.decrypt` returns the CBC plaintext with `p` trailing bytes removed,
where `p` is the integer value of the plaintext's last byte; there is no
check that `p` lies in [1, 16] or that the padding is consistent, and when
`p = 0` the returned message is empty. -/
theorem claim_C10_decrypt_strip (key iv c : List Nat)
    (hkl : key.length = 16 ∨ key.length = 24 ∨ key.length = 32)
    (hiv : iv.length = 16) (hc16 : c.length % 16 = 0) (hcne : c ≠ []) :
    ∀ m p : _, m = (cbc_decrypt c iv key (mkKey key iv).rounds).1 →
      p = m.getD (m.length - 1) 0 →
      ((mkKey key iv).decrypt c).1 = sliceToNeg m p ∧
      (p = 0 → ((mkKey key iv).decrypt c).1 = []) ∧
      (1 ≤ p → ((mkKey key iv).decrypt c).1 = m.take (m.length - p)) ∧
      (1 ≤ p → p ≤ m.length → (((mkKey key iv).decrypt c).1).length = m.length - p) := by
  intro m p hm hp
  subst hm
  subst hp
  have he : ((mkKey key iv).decrypt c).1 =
      sliceToNeg (cbc_decrypt c iv key (mkKey key iv).rounds).1
        ((cbc_decrypt c iv key (mkKey key iv).rounds).1.getD
          ((cbc_decrypt c iv key (mkKey key iv).rounds).1.length - 1) 0) := rfl
  refine ⟨he, ?_, ?_, ?_⟩
  · intro h0
    rw [he, sliceToNeg, if_pos h0]
  · intro h1
    rw [he, sliceToNeg, if_neg (by omega)]
  · intro h1 hle
    rw [he, sliceToNeg, if_neg (by omega), List.length_take]
    omega

/-- Witness for C10: decrypting 16 zero bytes under the all-zero key and iv
gives a CBC plaintext whose last byte is 58, so 58 > 16 trailing bytes are
"removed" without any padding validity check and the result is empty. -/
theorem claim_C10_witness :
    ((mkKey [0, 0, 0, 0, 0, 0, 0, 0, 0, 0, 0, 0, 0, 0, 0, 0] [0, 0, 0, 0, 0, 0, 0, 0, 0, 0, 0, 0, 0, 0, 0, 0]).decrypt
        [0, 0, 0, 0, 0, 0, 0, 0, 0, 0, 0, 0, 0, 0, 0, 0]).1 =
      sliceToNeg [20, 15, 15, 16, 17, 181, 34, 61, 121, 88, 119, 23, 255, 217, 236, 58] 58 ∧
    ((58 : Nat) = 0 → ((mkKey [0, 0, 0, 0, 0, 0, 0, 0, 0, 0, 0, 0, 0, 0, 0, 0] [0, 0, 0, 0, 0, 0, 0, 0, 0, 0, 0, 0, 0, 0, 0, 0]).decrypt
        [0, 0, 0, 0, 0, 0, 0, 0, 0, 0, 0, 0, 0, 0, 0, 0]).1 = []) ∧
    ((1 : Nat) ≤ 58 → ((mkKey [0, 0, 0, 0, 0, 0, 0, 0, 0, 0, 0, 0, 0, 0, 0, 0] [0, 0, 0, 0, 0, 0, 0, 0, 0, 0, 0, 0, 0, 0, 0, 0]).decrypt
        [0, 0, 0, 0, 0, 0, 0, 0, 0, 0, 0, 0, 0, 0, 0, 0]).1 =
      List.take (16 - 58) [20, 15, 15, 16, 17, 181, 34, 61, 121, 88, 119, 23, 255, 217, 236, 58]) ∧
    ((1 : Nat) ≤ 58 → (58 : Nat) ≤ 16 → (((mkKey [0, 0, 0, 0, 0, 0, 0, 0, 0, 0, 0, 0, 0, 0, 0, 0] [0, 0, 0, 0, 0, 0, 0, 0, 0, 0, 0, 0, 0, 0, 0, 0]).decrypt
        [0, 0, 0, 0, 0, 0, 0, 0, 0, 0, 0, 0, 0, 0, 0, 0]).1).length = 16 - 58) :=
  claim_C10_decrypt_strip [0, 0, 0, 0, 0, 0, 0, 0, 0, 0, 0, 0, 0, 0, 0, 0] [0, 0, 0, 0, 0, 0, 0, 0, 0, 0, 0, 0, 0, 0, 0, 0]
    [0, 0, 0, 0, 0, 0, 0, 0, 0, 0, 0, 0, 0, 0, 0, 0] (by decide) (by decide) (by decide) (by decide)
    [20, 15, 15, 16, 17, 181, 34, 61, 121, 88, 119, 23, 255, 217, 236, 58] 58 (by decide) (by decide)

/-! ## Session  (protocol/session.py)

`SHA256.hash` is a thin adapter over Python's `hashlib` (crypto/sha.py);
it is embedded as an arbitrary function `sha` together with the
hypothesis that digests are 32 bytes of byte values
(`SHA256.HASH_SIZE = 32`). -/

/-- The session holds two independent key objects; `Session.__init__`
initializes both from copies of the negotiated key. -/
structure Session where
  send_key : Key
  recv_key : Key

/-- `Session.__init__`: `recv_key = key.copy(); send_key = key.copy()`. -/
def mkSession (key : Key) : Session := ⟨key.copy, key.copy⟩

/-- `Session.send`: encrypt `message ‖ sha(message)` with `send_key` and
emit the ciphertext frame; `send_key`'s iv advances. -/
def Session.send (sha : List Nat → List Nat) (s : Session) (message : List Nat) :
    List Nat × Session :=
  let r := s.send_key.encrypt (message ++ sha message)
  (r.1, ⟨r.2, s.recv_key⟩)

/-- `Session.recv`: decrypt with `recv_key` (its iv advances even on
failure), split off the trailing `HASH_SIZE = 32` bytes, and fail
(`ValueError`) unless they equal the hash of the rest. -/
def Session.recv (sha : List Nat → List Nat) (s : Session) (crypto : List Nat) :
    Option (List Nat) × Session :=
  let r := s.recv_key.decrypt crypto
  let message := r.1.take (r.1.length - 32)
  let h := r.1.drop (r.1.length - 32)
  (if h = sha message then some message else none, ⟨s.send_key, r.2⟩)

/-- Successive `Session.send` calls: the list of ciphertext frames and the
final session state. -/
def sendAll (sha : List Nat → List Nat) : Session → List (List Nat) →
    List (List Nat) × Session
  | s, [] => ([], s)
  | s, msg :: ms =>
    let r := Session.send sha s msg
    let rest := sendAll sha r.2 ms
    (r.1 :: rest.1, rest.2)

/-- Successive `Session.recv` calls on a list of frames: `some` of the
recovered messages when every integrity check passes. -/
def recvAll (sha : List Nat → List Nat) : Session → List (List Nat) →
    Option (List (List Nat)) × Session
  | s, [] => (some [], s)
  | s, c :: cs =>
    let r := Session.recv sha s c
    let rest := recvAll sha r.2 cs
    ((match r.1, rest.1 with
      | some m, some ms => some (m :: ms)
      | _, _ => none), rest.2)

/-- One send/recv exchange: when A's send key matches B's recv key, B
recovers the message and the two evolved keys match again. -/
theorem session_step (sha : List Nat → List Nat)
    (hsha : ∀ m, (sha m).length = 32 ∧ Bytes (sha m)) (A B : Session)
    (hAB : A.send_key = B.recv_key) (hok : KeyOk A.send_key)
    (msg : List Nat) (hmb : Bytes msg) :
    Session.recv sha B (Session.send sha A msg).1 =
      (some msg, ⟨B.send_key, (Session.send sha A msg).2.send_key⟩) := by
  have hdata : Bytes (msg ++ sha msg) := by
    intro b hb
    rw [List.mem_append] at hb
    rcases hb with hb | hb
    · exact hmb b hb
    · exact (hsha msg).2 b hb
  have hrt := key_encrypt_decrypt hok (msg ++ sha msg) hdata
  have hc1 : (Session.send sha A msg).1 = (A.send_key.encrypt (msg ++ sha msg)).1 := rfl
  show (_, _) = _
  rw [← hAB, hc1, hrt]
  have hlen : (msg ++ sha msg).length - 32 = msg.length := by
    rw [List.length_append, (hsha msg).1]
    omega
  rw [hlen, take_length_append msg (sha msg) msg.length rfl,
    drop_length_append msg (sha msg) msg.length rfl, if_pos rfl]
  rfl

/-- Feeding A's frames to B in order recovers all messages and keeps
B's recv key in lock-step with A's send key. -/
theorem sessions_sync (sha : List Nat → List Nat)
    (hsha : ∀ m, (sha m).length = 32 ∧ Bytes (sha m)) :
    ∀ (ms : List (List Nat)) (A B : Session), A.send_key = B.recv_key →
      KeyOk A.send_key → (∀ m ∈ ms, Bytes m) →
      (recvAll sha B (sendAll sha A ms).1).1 = some ms ∧
      (recvAll sha B (sendAll sha A ms).1).2.recv_key = (sendAll sha A ms).2.send_key := by
  intro ms
  induction ms with
  | nil => exact fun A B hAB _ _ => ⟨rfl, hAB.symm⟩
  | cons m ms ih =>
    intro A B hAB hok hmb
    have hstep := session_step sha hsha A B hAB hok m (hmb m (by simp))
    have hok' : KeyOk (Session.send sha A m).2.send_key := by
      show KeyOk (A.send_key.encrypt (m ++ sha m)).2
      refine (key_encrypt_state hok (m ++ sha m) ?_).1
      intro b hb
      rw [List.mem_append] at hb
      rcases hb with hb | hb
      · exact hmb m (by simp) b hb
      · exact (hsha m).2 b hb
    have hih := ih (Session.send sha A m).2
      ⟨B.send_key, (Session.send sha A m).2.send_key⟩ rfl hok'
      (fun m' hm' => hmb m' (by simp [hm']))
    have hr1 : (Session.recv sha B (Session.send sha A m).1).1 = some m := by rw [hstep]
    have hr2 : (Session.recv sha B (Session.send sha A m).1).2 =
        ⟨B.send_key, (Session.send sha A m).2.send_key⟩ := by rw [hstep]
    constructor
    · show (match (Session.recv sha B (Session.send sha A m).1).1,
          (recvAll sha (Session.recv sha B (Session.send sha A m).1).2
            (sendAll sha (Session.send sha A m).2 ms).1).1 with
        | some x, some xs => some (x :: xs)
        | _, _ => none) = some (m :: ms)
      rw [hr1, hr2, hih.1]
    · show (recvAll sha (Session.recv sha B (Session.send sha A m).1).2
          (sendAll sha (Session.send sha A m).2 ms).1).2.recv_key =
        (sendAll sha (Session.send sha A m).2 ms).2.send_key
      rw [hr2]
      exact hih.2
/-- C1: for every AES key material of length 16/24/32, every 16-byte iv
and every finite sequence of byte-string messages, if sessions A and B are
each built from key objects holding the identical (k, iv), then feeding
the ciphertext frames of A's successive sends, in order, to B's recv
yields exactly the original messages in order with no integrity failure,
and after each message A's send_key state equals B's recv_key state. -/
theorem claim_C1_session_roundtrip (sha : List Nat → List Nat)
    (hsha : ∀ m, (sha m).length = 32 ∧ Bytes (sha m)) (key iv : List Nat)
    (hkl : key.length = 16 ∨ key.length = 24 ∨ key.length = 32)
    (hkb : Bytes key) (hiv : iv.length = 16) (hivb : Bytes iv)
    (ms : List (List Nat)) (hms : ∀ m ∈ ms, Bytes m) :
    ∀ i, i ≤ ms.length →
      (recvAll sha (mkSession (mkKey key iv))
        (sendAll sha (mkSession (mkKey key iv)) (ms.take i)).1).1 = some (ms.take i) ∧
      (recvAll sha (mkSession (mkKey key iv))
          (sendAll sha (mkSession (mkKey key iv)) (ms.take i)).1).2.recv_key =
        (sendAll sha (mkSession (mkKey key iv)) (ms.take i)).2.send_key := by
  intro i hi
  refine sessions_sync sha hsha (ms.take i) (mkSession (mkKey key iv))
    (mkSession (mkKey key iv)) rfl ?_ ?_
  · show KeyOk (mkKey key iv)
    exact mkKey_ok hkl hkb hiv hivb
  · exact fun m hm => hms m (List.mem_of_mem_take hm)

/-- Witness for C1 with a stub 32-byte digest function, an all-zero
16-byte key and iv, and the single message [1, 2]. -/
theorem claim_C1_witness :
    (recvAll (fun _ => List.replicate 32 0) (mkSession (mkKey [0, 0, 0, 0, 0, 0, 0, 0, 0, 0, 0, 0, 0, 0, 0, 0] [0, 0, 0, 0, 0, 0, 0, 0, 0, 0, 0, 0, 0, 0, 0, 0]))
      (sendAll (fun _ => List.replicate 32 0) (mkSession (mkKey [0, 0, 0, 0, 0, 0, 0, 0, 0, 0, 0, 0, 0, 0, 0, 0] [0, 0, 0, 0, 0, 0, 0, 0, 0, 0, 0, 0, 0, 0, 0, 0]))
        (List.take 1 [[1, 2]])).1).1 = some (List.take 1 [[1, 2]]) ∧
    (recvAll (fun _ => List.replicate 32 0) (mkSession (mkKey [0, 0, 0, 0, 0, 0, 0, 0, 0, 0, 0, 0, 0, 0, 0, 0] [0, 0, 0, 0, 0, 0, 0, 0, 0, 0, 0, 0, 0, 0, 0, 0]))
        (sendAll (fun _ => List.replicate 32 0) (mkSession (mkKey [0, 0, 0, 0, 0, 0, 0, 0, 0, 0, 0, 0, 0, 0, 0, 0] [0, 0, 0, 0, 0, 0, 0, 0, 0, 0, 0, 0, 0, 0, 0, 0]))
          (List.take 1 [[1, 2]])).1).2.recv_key =
      (sendAll (fun _ => List.replicate 32 0) (mkSession (mkKey [0, 0, 0, 0, 0, 0, 0, 0, 0, 0, 0, 0, 0, 0, 0, 0] [0, 0, 0, 0, 0, 0, 0, 0, 0, 0, 0, 0, 0, 0, 0, 0]))
        (List.take 1 [[1, 2]])).2.send_key :=
  claim_C1_session_roundtrip (fun _ => List.replicate 32 0)
    (fun m => ⟨List.length_replicate 32 0,
      fun b hb => by rw [List.eq_of_mem_replicate hb]; omega⟩) [0, 0, 0, 0, 0, 0, 0, 0, 0, 0, 0, 0, 0, 0, 0, 0] [0, 0, 0, 0, 0, 0, 0, 0, 0, 0, 0, 0, 0, 0, 0, 0]
    (by decide) (by decide) (by decide) (by decide) [[1, 2]] (by decide) 1 (by decide)

/-! ## Framed connection  (protocol/connection.py) -/

/-- `Connection._send_chunk`: 2-byte big-endian header
`(is_last << 15) | (len(chunk) - 1)` followed by the chunk bytes. -/
def sendChunk (chunk : List Nat) (is_last : Bool) : List Nat :=
  let header := (cond is_last 1 0) <<< 15 ||| (chunk.length - 1)
  header / 256 :: header % 256 :: chunk

/-- The `while offset < total_length` loop of `Connection.send`: emit
chunks of `min(32767, remaining)` bytes, the last one flagged. -/
def sendLoop : Nat → List Nat → List Nat
  | 0, _ => []
  | fuel + 1, data =>
    if data.length = 0 then []
    else
      let cs := min 32767 data.length
      sendChunk (data.take cs) (decide (cs = data.length)) ++ sendLoop fuel (data.drop cs)

/-- `Connection.send`: `EmptyMessage` (`ValueError`) on empty data, else
the chunked wire encoding.  Each loop iteration consumes at least one
byte, so `data.length` units of fuel always suffice. -/
def connSend (data : List Nat) : Option (List Nat) :=
  if data.length = 0 then none else some (sendLoop data.length data)

/-- `Connection._recv_chunk` on a byte stream: parse the 2-byte big-endian
header, then read `(header & 0x7FFF) + 1` payload bytes (the short-read
loop concatenates until that many bytes have arrived); `is_last` is
`bool(header >> 15)`.  Returns ((chunk, is_last), rest of stream). -/
def recvChunk (stream : List Nat) : Option ((List Nat × Bool) × List Nat) :=
  match stream with
  | h1 :: h2 :: rest =>
    let header := h1 * 256 + h2
    let length := (header &&& 32767) + 1
    if rest.length < length then none
    else some ((rest.take length, decide (header >>> 15 ≠ 0)), rest.drop length)
  | _ => none

/-- The `while not is_last` loop of `Connection.recv`. -/
def recvLoop : Nat → List Nat → Option (List Nat × List Nat)
  | 0, _ => none
  | fuel + 1, stream =>
    match recvChunk stream with
    | none => none
    | some ((chunk, is_last), rest) =>
      if is_last then some (chunk, rest)
      else
        match recvLoop fuel rest with
        | none => none
        | some (msg, rest') => some (chunk ++ msg, rest')

/-- `Connection.recv` on a byte stream: the reassembled message and the
unconsumed remainder of the stream. -/
def connRecv (stream : List Nat) : Option (List Nat × List Nat) :=
  recvLoop (stream.length + 1) stream

theorem sendLoop_nil (f : Nat) : sendLoop f [] = [] := by
  cases f <;> rfl

theorem lor_32768 : ∀ y < 32768, 32768 ||| y = 32768 + y := by
  intro y hy
  have h := (Nat.mul_add_lt_is_or (show y < 2 ^ 15 by omega) 1).symm
  norm_num at h
  exact h

theorem framing_inv : ∀ (n : Nat) (d extra : List Nat) (f g : Nat),
    d.length ≤ n → d ≠ [] → d.length ≤ f → d.length ≤ g →
    recvLoop g (sendLoop f d ++ extra) = some (d, extra) := by
  intro n
  induction n with
  | zero =>
    intro d extra f g hn hne _ _
    exact absurd (List.length_eq_zero.mp (by omega)) hne
  | succ n ih =>
    intro d extra f g hn hne hf hg
    have hd1 : 1 ≤ d.length := by
      cases d with
      | nil => exact absurd rfl hne
      | cons a t => simp
    obtain ⟨f', rfl⟩ : ∃ f', f = f' + 1 := ⟨f - 1, by omega⟩
    obtain ⟨g', rfl⟩ : ∃ g', g = g' + 1 := ⟨g - 1, by omega⟩
    set cs := min 32767 d.length with hcs
    have hcs1 : 1 ≤ cs := by omega
    have hcs32 : cs ≤ 32767 := by omega
    have htl : (d.take cs).length = cs := by
      rw [List.length_take]
      omega
    show recvLoop (g' + 1) ((if d.length = 0 then [] else
      sendChunk (d.take cs) (decide (cs = d.length)) ++ sendLoop f' (d.drop cs)) ++ extra) =
      some (d, extra)
    rw [if_neg (by omega)]
    set flag := decide (cs = d.length) with hflag
    set header := (cond flag 1 0) <<< 15 ||| ((d.take cs).length - 1) with hheader
    have hheadval : header = (cond flag 32768 0) + (cs - 1) := by
      rw [hheader, htl]
      cases flag
      · show 0 <<< 15 ||| (cs - 1) = 0 + (cs - 1)
        rw [Nat.zero_shiftLeft, Nat.zero_or, Nat.zero_add]
      · show 1 <<< 15 ||| (cs - 1) = 32768 + (cs - 1)
        exact lor_32768 (cs - 1) (by omega)
    have hheadlt : header < 65536 := by
      rw [hheadval]
      cases flag <;> simp <;> omega
    show recvLoop (g' + 1)
      ((header / 256 :: header % 256 :: d.take cs) ++ sendLoop f' (d.drop cs) ++ extra) =
      some (d, extra)
    have hrest : (d.take cs ++ (sendLoop f' (d.drop cs) ++ extra)).length ≥ cs := by
      rw [List.length_append, htl]
      omega
    have hre : header / 256 * 256 + header % 256 = header := by omega
    rw [List.append_assoc]
    show (match recvChunk (header / 256 :: header % 256 ::
        (d.take cs ++ (sendLoop f' (d.drop cs) ++ extra))) with
      | none => none
      | some ((chunk, is_last), rest) =>
        if is_last then some (chunk, rest)
        else
          match recvLoop g' rest with
          | none => none
          | some (msg, rest') => some (chunk ++ msg, rest')) = some (d, extra)
    rw [recvChunk, hre]
    have hmod : header &&& 32767 = cs - 1 := by
      rw [show (32767 : Nat) = 2 ^ 15 - 1 from rfl, Nat.and_pow_two_sub_one_eq_mod, hheadval]
      cases flag <;> simp <;> omega
    rw [hmod, show cs - 1 + 1 = cs by omega]
    rw [if_neg (by omega)]
    rw [take_length_append _ _ cs htl, drop_length_append _ _ cs htl]
    have hshift : header >>> 15 = cond flag 1 0 := by
      rw [Nat.shiftRight_eq_div_pow, hheadval]
      cases flag <;> simp <;> omega
    by_cases hlast : cs = d.length
    · have hflagt : flag = true := by rw [hflag, decide_eq_true_eq]; exact hlast
      rw [hshift, hflagt]
      show (if (decide ((1 : Nat) ≠ 0)) = true then some (d.take cs, sendLoop f' (d.drop cs) ++ extra)
        else _) = some (d, extra)
      rw [if_pos (by decide)]
      rw [hlast, List.take_length, List.drop_length, sendLoop_nil, List.nil_append]
    · have hflagf : flag = false := by rw [hflag, decide_eq_false_iff_not]; exact hlast
      rw [hshift, hflagf]
      show (if (decide ((0 : Nat) ≠ 0)) = true then _
        else match recvLoop g' (sendLoop f' (d.drop cs) ++ extra) with
          | none => none
          | some (msg, rest') => some (d.take cs ++ msg, rest')) = some (d, extra)
      rw [if_neg (by decide)]
      have hdlen : (d.drop cs).length = d.length - cs := by simp
      have hne' : d.drop cs ≠ [] := by
        intro hh
        have := congrArg List.length hh
        rw [hdlen] at this
        simp at this
        omega
      rw [ih (d.drop cs) extra f' g' (by omega) hne' (by omega) (by omega)]
      show some (d.take cs ++ d.drop cs, extra) = some (d, extra)
      rw [List.take_append_drop]

/-- C6: for every non-empty byte string d, `Connection.send` frames d as
successive chunks of `min(32767, remaining)` bytes behind 2-byte
big-endian headers `(F << 15) | (length - 1)` with F = 1 only on the final
chunk, and `Connection.recv` applied to exactly that byte sequence
returns d (consuming the whole stream). -/
theorem sendLoop_length : ∀ (n : Nat) (d : List Nat) (f : Nat),
    d.length ≤ n → d.length ≤ f → d.length ≤ (sendLoop f d).length := by
  intro n
  induction n with
  | zero =>
    intro d f hn _
    have hd : d = [] := List.length_eq_zero.mp (by omega)
    subst hd
    rw [sendLoop_nil]
  | succ n ih =>
    intro d f hn hf
    by_cases hne : d.length = 0
    · have hd : d = [] := List.length_eq_zero.mp hne
      subst hd
      rw [sendLoop_nil]
    · obtain ⟨f', rfl⟩ : ∃ f', f = f' + 1 := ⟨f - 1, by omega⟩
      set cs := min 32767 d.length with hcs
      show d.length ≤ (if d.length = 0 then [] else
        sendChunk (d.take cs) (decide (cs = d.length)) ++ sendLoop f' (d.drop cs)).length
      rw [if_neg hne]
      have hrec := ih (d.drop cs) f' (by simp; omega) (by simp; omega)
      have hdl : (d.drop cs).length = d.length - cs := by simp
      rw [List.length_append]
      show d.length ≤ ((d.take cs).length + 2) + (sendLoop f' (d.drop cs)).length
      rw [List.length_take]
      omega

theorem claim_C6_framing_roundtrip (d : List Nat) (hne : d ≠ []) (hdb : Bytes d) :
    connSend d = some (sendLoop d.length d) ∧
    connRecv (sendLoop d.length d) = some (d, []) := by
  have hd1 : 1 ≤ d.length := by
    cases d with
    | nil => exact absurd rfl hne
    | cons a t => simp
  constructor
  · rw [connSend, if_neg (by omega)]
  · show recvLoop ((sendLoop d.length d).length + 1) (sendLoop d.length d) = some (d, [])
    have := framing_inv d.length d [] d.length ((sendLoop d.length d).length + 1)
      (le_refl _) hne (le_refl _) ?_
    · simpa using this
    · have := sendLoop_length d.length d d.length (le_refl _) (le_refl _)
      omega

/-- Witness for C6 with the two-byte message [7, 8]. -/
theorem claim_C6_witness :
    connSend [7, 8] = some (sendLoop (List.length [7, 8]) [7, 8]) ∧
    connRecv (sendLoop (List.length [7, 8]) [7, 8]) = some ([7, 8], []) :=
  claim_C6_framing_roundtrip [7, 8] (by decide) (by decide)

/-! ## Server handshake username handling  (protocol/server.py) -/

/-- `Server.validate_name`: 1..32 characters, each in
`string.ascii_letters + string.digits + "_"`. -/
def validate_name (name : List Char) : Bool :=
  decide (0 < name.length) && decide (name.length ≤ 32) &&
    name.all fun c => c.isAlpha || c.isDigit || c = '_'

/-- Step 3 of `Server.accept`, applied to the decoded username: the only
tests are `username == self.chatname or username in self.clients`; on a
hit the connection is closed and `accept` returns `None` (no session, no
map entry), otherwise the handshake proceeds and the client is inserted
into the map.  `validate_name` is never called on the username. -/
def accept_username_step (chatname : List Char) (clients : List (List Char))
    (username : List Char) : Option (List (List Char)) :=
  if username = chatname ∨ clients.contains username then none
  else some (clients ++ [username])

/-- C8 helper: `is_prime` draws `a = secrets.randbelow(n - 1) + 2`, so a
random outcome `r ∈ [0, n - 2]` yields the trial base `r + 2`. -/
def fermatBase (r : Nat) : Nat := r + 2

/-- `is_prime(n, k)` with the k random outcomes passed explicitly: n ≤ 1
is composite, n ≤ 3 prime, otherwise every trial must satisfy
`a^(n-1) mod n = 1`. -/
def is_prime (n : Nat) (draws : List Nat) : Bool :=
  if n ≤ 1 then false
  else if n ≤ 3 then true
  else draws.all fun r => decide (fermatBase r ^ (n - 1) % n = 1)

/-- C7: the code does not validate the decoded username.  The empty
username fails `validate_name` (the claim and spec require the server to
drop it), yet `Server.accept`'s username step accepts it whenever it
differs from the chatname and is not already connected, creating a session
and inserting the empty name into the client map. -/
theorem claim_C7_accept_skips_validation :
    validate_name [] = false ∧
    validate_name ['r', 'o', 'o', 'm'] = true ∧
    accept_username_step ['r', 'o', 'o', 'm'] [] [] = some [[]] := by
  refine ⟨rfl, by decide, by decide⟩

/-- C8: the trial base is `randbelow(n - 1) + 2 ∈ [2, n]`, not [2, n - 2]:
for n = 5 the outcome r = 3 is a legal draw (3 ≤ n - 2) and produces the
base a = 5, which exceeds n - 2 = 3; on that outcome `is_prime` reports
the prime 5 composite, since 5^4 mod 5 = 0 ≠ 1.  The small-n fast paths
and the trial condition itself behave as the claim states. -/
theorem claim_C8_fermat_base_range :
    (3 ≤ 5 - 2) ∧ fermatBase 3 = 5 ∧ 5 - 2 < fermatBase 3 ∧
    is_prime 5 [3] = false ∧ Nat.Prime 5 ∧
    is_prime 1 [] = false ∧ is_prime 3 [] = true := by
  refine ⟨by decide, rfl, by decide, by decide, by norm_num, by decide, by decide⟩

/-! ## RSA  (crypto/rsa.py) -/

/-- Binary (LSB-first, tail-recursive) modular exponentiation with fuel:
the executable equivalent of Python's three-argument `pow`.  Invariant:
the result is `acc * a^e mod n`. -/
def powModT : Nat → Nat → Nat → Nat → Nat → Nat
  | 0, _, _, acc, n => acc % n
  | f + 1, a, e, acc, n =>
    if e = 0 then acc % n
    else powModT f (a * a % n) (e / 2) (if e % 2 = 1 then acc * a % n else acc) n

/-- `pow(a, e, n)`: fuel `e + 1` always suffices since the exponent halves
each step. -/
def pow_mod (a e n : Nat) : Nat := powModT (e + 1) a e 1 n

/-- `int.from_bytes(data, "big")`. -/
def from_bytes_be (data : List Nat) : Nat :=
  data.foldl (fun acc b => acc * 256 + b) 0

/-- `x.to_bytes(l, "big")`: exactly `l` big-endian bytes. -/
def to_bytes_be : Nat → Nat → List Nat
  | 0, _ => []
  | l + 1, x => to_bytes_be l (x / 256) ++ [x % 256]

/-- `x.bit_length()` via fuel (the value halves each step). -/
def bitLenF : Nat → Nat → Nat
  | 0, _ => 0
  | f + 1, x => if x = 0 then 0 else bitLenF f (x / 2) + 1

/-- `x.bit_length()`. -/
def bit_length (x : Nat) : Nat := bitLenF x x

/-- `m.to_bytes((m.bit_length() + 7) // 8, "big")`: the minimal big-endian
encoding used by both `PublicKey.encrypt` and `PrivateKey.decrypt`. -/
def int_to_bytes (m : Nat) : List Nat := to_bytes_be ((bit_length m + 7) / 8) m

/-- `PublicKey.encrypt`: fail (`MessageTooLarge`) when `int(m) ≥ n`, else
emit the minimal big-endian bytes of `m^e mod n`. -/
def rsa_encrypt (n e : Nat) (message : List Nat) : Option (List Nat) :=
  let m := from_bytes_be message
  if n ≤ m then none else some (int_to_bytes (pow_mod m e n))

/-- `PrivateKey.decrypt`: the minimal big-endian bytes of `c^d mod n`. -/
def rsa_decrypt (n d : Nat) (cipher : List Nat) : List Nat :=
  int_to_bytes (pow_mod (from_bytes_be cipher) d n)

/-- What `generate_keys(bits)` guarantees about its output: two distinct
probable primes from `generate_prime(bits // 2)` (top bit and low bit
forced by `p |= (1 << bits - 1) | 1`), `n = p * q`,
`φ = (p - 1) * (q - 1)`, `e` the first odd value from 65537 upward coprime
to φ, and `d = pow(e, -1, φ)` the inverse of e modulo φ in [0, φ). -/
def GeneratedKeyPair (bits p q n e d : Nat) : Prop :=
  Nat.Prime p ∧ Nat.Prime q ∧ p ≠ q ∧
  2 ^ (bits / 2 - 1) ≤ p ∧ p < 2 ^ (bits / 2) ∧ p % 2 = 1 ∧
  2 ^ (bits / 2 - 1) ≤ q ∧ q < 2 ^ (bits / 2) ∧ q % 2 = 1 ∧
  n = p * q ∧
  (∃ j : Nat, e = 65537 + 2 * j ∧ Nat.gcd e ((p - 1) * (q - 1)) = 1 ∧
    ∀ i < j, Nat.gcd (65537 + 2 * i) ((p - 1) * (q - 1)) ≠ 1) ∧
  d < (p - 1) * (q - 1) ∧ d * e % ((p - 1) * (q - 1)) = 1 % ((p - 1) * (q - 1))

theorem pow_mod_eq (a e n : Nat) : pow_mod a e n = a ^ e % n := by
  have key : ∀ f a e acc : Nat, e < 2 ^ f → powModT f a e acc n = acc * a ^ e % n := by
    intro f
    induction f with
    | zero =>
      intro a e acc he
      interval_cases e
      simp [powModT]
    | succ f ih =>
      intro a e acc he
      by_cases he0 : e = 0
      · simp [powModT, he0]
      · have h2 : e / 2 < 2 ^ f := by omega
        show (if e = 0 then acc % n
          else powModT f (a * a % n) (e / 2) (if e % 2 = 1 then acc * a % n else acc) n) =
          acc * a ^ e % n
        rw [if_neg he0, ih (a * a % n) (e / 2) _ h2]
        have hx : ∀ c : Nat, c * (a * a % n) ^ (e / 2) % n = c * (a * a) ^ (e / 2) % n := by
          intro c
          rw [Nat.mul_mod, ← Nat.pow_mod, ← Nat.mul_mod]
        by_cases hpar : e % 2 = 1
        · rw [if_pos hpar, hx, Nat.mod_mul_mod]
          have hexp : acc * a * (a * a) ^ (e / 2) = acc * a ^ e := by
            rw [show a * a = a ^ 2 by ring, ← pow_mul, mul_assoc, ← pow_succ',
              show 2 * (e / 2) + 1 = e by omega]
          rw [hexp]
        · rw [if_neg hpar, hx]
          have hexp : acc * (a * a) ^ (e / 2) = acc * a ^ e := by
            rw [show a * a = a ^ 2 by ring, ← pow_mul, show 2 * (e / 2) = e by omega]
          rw [hexp]
  rw [pow_mod, key (e + 1) a e 1
    ((Nat.lt_two_pow e).trans (Nat.pow_lt_pow_succ (by norm_num))), one_mul]

theorem zmod_pow_eq_one_iff (p a e : Nat) (hp : 1 < p) :
    ((a : ZMod p) ^ e = 1) ↔ a ^ e % p = 1 := by
  rw [← Nat.cast_pow, show (1 : ZMod p) = ((1 : Nat) : ZMod p) by simp,
    ZMod.natCast_eq_natCast_iff, Nat.ModEq, Nat.mod_eq_of_lt hp]

/-- Fermat step of the textbook-RSA correctness argument. -/
theorem fermat_aux {p : Nat} (hp : p.Prime) (m c : Nat) (hc1 : 1 ≤ c)
    (hc : c ≡ 1 [MOD p - 1]) : m ^ c ≡ m [MOD p] := by
  by_cases hdvd : p ∣ m
  · have h0 : m ≡ 0 [MOD p] := Nat.modEq_zero_iff_dvd.mpr hdvd
    calc m ^ c ≡ 0 ^ c [MOD p] := h0.pow c
      _ = 0 := by rw [Nat.zero_pow (by omega)]
      _ ≡ m [MOD p] := h0.symm
  · haveI : Fact p.Prime := ⟨hp⟩
    haveI : NeZero p := ⟨hp.pos.ne'⟩
    obtain ⟨t, ht⟩ : ∃ t, c - 1 = (p - 1) * t := (Nat.modEq_iff_dvd' hc1).mp hc.symm
    have hce : c = 1 + (p - 1) * t := by omega
    have hm0 : (m : ZMod p) ≠ 0 := by
      intro h
      exact hdvd ((ZMod.natCast_zmod_eq_zero_iff_dvd m p).mp h)
    have hfer : (m : ZMod p) ^ (p - 1) = 1 := ZMod.pow_card_sub_one_eq_one hm0
    have hz : ((m ^ c : Nat) : ZMod p) = ((m : Nat) : ZMod p) := by
      push_cast
      rw [hce, pow_add, pow_one, pow_mul, hfer, one_pow, mul_one]
    exact (ZMod.natCast_eq_natCast_iff _ _ _).mp hz

/-- Textbook RSA correctness: `m^(d·e) ≡ m (mod p·q)` for distinct primes
and `d·e ≡ 1 (mod φ)`. -/
theorem rsa_roundtrip_core {p q d e m : Nat} (hp : p.Prime) (hq : q.Prime)
    (hpq : p ≠ q) (hde : d * e % ((p - 1) * (q - 1)) = 1 % ((p - 1) * (q - 1)))
    (hm : m < p * q) : m ^ (d * e) % (p * q) = m := by
  have hp2 := hp.two_le
  have hq2 := hq.two_le
  have hphi : 2 ≤ (p - 1) * (q - 1) := by
    have h3 : 3 ≤ p ∨ 3 ≤ q := by omega
    rcases h3 with h3 | h3
    · calc 2 = 2 * 1 := by ring
        _ ≤ (p - 1) * (q - 1) := Nat.mul_le_mul (by omega) (by omega)
    · calc 2 = 1 * 2 := by ring
        _ ≤ (p - 1) * (q - 1) := Nat.mul_le_mul (by omega) (by omega)
  have hde1 : 1 ≤ d * e := by
    by_contra h
    have h0 : d * e = 0 := by omega
    rw [h0, Nat.zero_mod, Nat.mod_eq_of_lt (by omega)] at hde
    omega
  have hmodeq : d * e ≡ 1 [MOD (p - 1) * (q - 1)] := hde
  have hcp : d * e ≡ 1 [MOD p - 1] :=
    Nat.ModEq.of_dvd (dvd_mul_right (p - 1) (q - 1)) hmodeq
  have hcq : d * e ≡ 1 [MOD q - 1] :=
    Nat.ModEq.of_dvd (dvd_mul_left (q - 1) (p - 1)) hmodeq
  have h1 := fermat_aux hp m (d * e) hde1 hcp
  have h2 := fermat_aux hq m (d * e) hde1 hcq
  have hco : Nat.Coprime p q := (Nat.coprime_primes hp hq).mpr hpq
  have hall : m ^ (d * e) ≡ m [MOD p * q] :=
    (Nat.modEq_and_modEq_iff_modEq_mul hco).mp ⟨h1, h2⟩
  calc m ^ (d * e) % (p * q) = m % (p * q) := hall
    _ = m := Nat.mod_eq_of_lt hm

theorem from_bytes_be_append (A : List Nat) (b : Nat) :
    from_bytes_be (A ++ [b]) = from_bytes_be A * 256 + b := by
  simp [from_bytes_be, List.foldl_append]

theorem from_to_bytes_be : ∀ l x : Nat, x < 256 ^ l →
    from_bytes_be (to_bytes_be l x) = x := by
  intro l
  induction l with
  | zero =>
    intro x hx
    interval_cases x
    rfl
  | succ l ih =>
    intro x hx
    show from_bytes_be (to_bytes_be l (x / 256) ++ [x % 256]) = x
    rw [from_bytes_be_append, ih (x / 256) (by rw [pow_succ] at hx; omega)]
    omega

theorem bitLenF_lt : ∀ f x : Nat, x ≤ f → x < 2 ^ bitLenF f x := by
  intro f
  induction f with
  | zero =>
    intro x hx
    interval_cases x
    decide
  | succ f ih =>
    intro x hx
    by_cases h0 : x = 0
    · simp [bitLenF, h0]
    · show x < 2 ^ (if x = 0 then 0 else bitLenF f (x / 2) + 1)
      rw [if_neg h0]
      have := ih (x / 2) (by omega)
      rw [pow_succ]
      omega

theorem lt_pow_bytes (x : Nat) : x < 256 ^ ((bit_length x + 7) / 8) := by
  have h := bitLenF_lt x x (le_refl x)
  have h8 : 2 ^ bit_length x ≤ 256 ^ ((bit_length x + 7) / 8) := by
    rw [show (256 : Nat) = 2 ^ 8 by norm_num, ← pow_mul]
    exact Nat.pow_le_pow_right (by norm_num) (by omega)
  exact lt_of_lt_of_le h h8

/-- Decoding inverts the minimal big-endian encoding. -/
theorem from_int_to_bytes (x : Nat) : from_bytes_be (int_to_bytes x) = x :=
  from_to_bytes_be _ x (lt_pow_bytes x)

theorem to_bytes_be_length : ∀ l x : Nat, (to_bytes_be l x).length = l := by
  intro l
  induction l with
  | zero => intro x; rfl
  | succ l ih =>
    intro x
    show (to_bytes_be l (x / 256) ++ [x % 256]).length = l + 1
    rw [List.length_append, ih, List.length_singleton]

theorem bitLenF_le : ∀ f x j : Nat, x ≤ f → x < 2 ^ j → bitLenF f x ≤ j := by
  intro f
  induction f with
  | zero =>
    intro x j hx _
    interval_cases x
    simp [bitLenF]
  | succ f ih =>
    intro x j hx hj
    by_cases h0 : x = 0
    · simp [bitLenF, h0]
    · show (if x = 0 then 0 else bitLenF f (x / 2) + 1) ≤ j
      rw [if_neg h0]
      cases j with
      | zero =>
        rw [pow_zero] at hj
        omega
      | succ j' =>
        have hx2 : x / 2 < 2 ^ j' := by
          rw [pow_succ] at hj
          omega
        have := ih (x / 2) j' (by omega) hx2
        omega

theorem lt_bitLenF : ∀ f x j : Nat, x ≤ f → 2 ^ j ≤ x → j < bitLenF f x := by
  intro f
  induction f with
  | zero =>
    intro x j hx h2
    have h1 : 0 < 2 ^ j := pow_pos (by norm_num) j
    omega
  | succ f ih =>
    intro x j hx h2
    have h1 : 0 < 2 ^ j := pow_pos (by norm_num) j
    have h0 : x ≠ 0 := by omega
    show j < (if x = 0 then 0 else bitLenF f (x / 2) + 1)
    rw [if_neg h0]
    cases j with
    | zero => omega
    | succ j' =>
      have hp' : 0 < 2 ^ j' := pow_pos (by norm_num) j'
      have hx2 : 2 ^ j' ≤ x / 2 := by
        rw [pow_succ] at h2
        omega
      have := ih (x / 2) j' (by omega) hx2
      omega

theorem foldl_bytes_lower : ∀ (t : List Nat) (a : Nat),
    a * 256 ^ t.length ≤ t.foldl (fun acc c => acc * 256 + c) a := by
  intro t
  induction t with
  | nil => intro a; simp
  | cons b t ih =>
    intro a
    show a * 256 ^ (t.length + 1) ≤ List.foldl (fun acc c => acc * 256 + c) (a * 256 + b) t
    refine le_trans ?_ (ih (a * 256 + b))
    rw [pow_succ, show a * (256 ^ t.length * 256) = a * 256 * 256 ^ t.length from by ring]
    exact Nat.mul_le_mul (by omega) (le_refl _)

theorem foldl_bytes_upper : ∀ (t : List Nat) (a : Nat), Bytes t →
    t.foldl (fun acc c => acc * 256 + c) a < (a + 1) * 256 ^ t.length := by
  intro t
  induction t with
  | nil => intro a _; simp
  | cons b t ih =>
    intro a hb
    have hb256 : b < 256 := hb b (List.mem_cons_self b t)
    have hbt : Bytes t := fun x hx => hb x (List.mem_cons_of_mem _ hx)
    show List.foldl (fun acc c => acc * 256 + c) (a * 256 + b) t < (a + 1) * 256 ^ (t.length + 1)
    refine lt_of_lt_of_le (ih (a * 256 + b) hbt) ?_
    rw [pow_succ, show (a + 1) * (256 ^ t.length * 256) =
      (a + 1) * 256 * 256 ^ t.length from by ring]
    exact Nat.mul_le_mul (by omega) (le_refl _)

/-- A byte string decodes below `256 ^ length`. -/
theorem from_bytes_be_lt (m : List Nat) (hb : Bytes m) :
    from_bytes_be m < 256 ^ m.length := by
  have h := foldl_bytes_upper m 0 hb
  rw [show (0 + 1) * 256 ^ m.length = 256 ^ m.length from by ring] at h
  exact h

/-- A byte string with a nonzero leading byte decodes to at least
`256 ^ (length - 1)`. -/
theorem from_bytes_be_cons_ge (b : Nat) (t : List Nat) (hb1 : 1 ≤ b) :
    256 ^ t.length ≤ from_bytes_be (b :: t) := by
  have h := foldl_bytes_lower t b
  have he : from_bytes_be (b :: t) = List.foldl (fun acc c => acc * 256 + c) b t := by
    simp [from_bytes_be]
  rw [he]
  refine le_trans ?_ h
  calc 256 ^ t.length = 1 * 256 ^ t.length := (one_mul _).symm
    _ ≤ b * 256 ^ t.length := Nat.mul_le_mul hb1 (le_refl _)

/-- Fixed-width big-endian encoding at the exact length inverts decoding. -/
theorem to_from_bytes : ∀ m : List Nat, Bytes m →
    to_bytes_be m.length (from_bytes_be m) = m := by
  intro m
  induction m using List.reverseRecOn with
  | nil => intro _; rfl
  | append_singleton A b ih =>
    intro hb
    have hbA : Bytes A := fun x hx => hb x (List.mem_append_left _ hx)
    have hbb : b < 256 := hb b (List.mem_append_right _ (by simp))
    show to_bytes_be (A ++ [b]).length (from_bytes_be (A ++ [b])) = A ++ [b]
    rw [List.length_append, List.length_singleton]
    show to_bytes_be A.length (from_bytes_be (A ++ [b]) / 256) ++
      [from_bytes_be (A ++ [b]) % 256] = A ++ [b]
    rw [from_bytes_be_append,
      show (from_bytes_be A * 256 + b) / 256 = from_bytes_be A from by omega,
      show (from_bytes_be A * 256 + b) % 256 = b from by omega, ih hbA]

/-- The minimal encoding of a byte string's value is the string itself
exactly when the string is empty or its first byte is nonzero. -/
theorem int_to_bytes_from_bytes (m : List Nat) (hb : Bytes m) :
    int_to_bytes (from_bytes_be m) = m ↔ (m = [] ∨ m.getD 0 0 ≠ 0) := by
  constructor
  · intro h
    by_contra hc
    push_neg at hc
    obtain ⟨hne, h0⟩ := hc
    obtain ⟨b, t, rfl⟩ : ∃ b t, m = b :: t := by
      cases m with
      | nil => exact absurd rfl hne
      | cons b t => exact ⟨b, t, rfl⟩
    have hb0 : b = 0 := h0
    subst hb0
    have hbt : Bytes t := fun x hx => hb x (List.mem_cons_of_mem _ hx)
    have hx : from_bytes_be (0 :: t) = from_bytes_be t := by
      simp [from_bytes_be]
    have hlt2 : from_bytes_be t < 2 ^ (8 * t.length) := by
      have h1 := from_bytes_be_lt t hbt
      rwa [show (256 : Nat) ^ t.length = 2 ^ (8 * t.length) from by
        rw [show (256 : Nat) = 2 ^ 8 from by norm_num, ← pow_mul]] at h1
    have hble : bit_length (from_bytes_be t) ≤ 8 * t.length :=
      bitLenF_le _ _ _ (le_refl _) hlt2
    have hlen := congrArg List.length h
    simp only [int_to_bytes, to_bytes_be_length, hx, List.length_cons] at hlen
    omega
  · intro h
    rcases h with rfl | h0
    · rfl
    · obtain ⟨b, t, rfl⟩ : ∃ b t, m = b :: t := by
        cases m with
        | nil => exact absurd rfl h0
        | cons b t => exact ⟨b, t, rfl⟩
      have hb1 : 1 ≤ b := Nat.pos_of_ne_zero h0
      have hup : from_bytes_be (b :: t) < 2 ^ (8 * (t.length + 1)) := by
        have h1 := from_bytes_be_lt (b :: t) hb
        rwa [List.length_cons, show (256 : Nat) ^ (t.length + 1) = 2 ^ (8 * (t.length + 1))
          from by rw [show (256 : Nat) = 2 ^ 8 from by norm_num, ← pow_mul]] at h1
      have hlo : 2 ^ (8 * t.length) ≤ from_bytes_be (b :: t) := by
        have h1 := from_bytes_be_cons_ge b t hb1
        rwa [show (256 : Nat) ^ t.length = 2 ^ (8 * t.length) from by
          rw [show (256 : Nat) = 2 ^ 8 from by norm_num, ← pow_mul]] at h1
      have h1 : bit_length (from_bytes_be (b :: t)) ≤ 8 * (t.length + 1) :=
        bitLenF_le _ _ _ (le_refl _) hup
      have h2 : 8 * t.length < bit_length (from_bytes_be (b :: t)) :=
        lt_bitLenF _ _ _ (le_refl _) hlo
      have hlen : (bit_length (from_bytes_be (b :: t)) + 7) / 8 = t.length + 1 := by omega
      show to_bytes_be ((bit_length (from_bytes_be (b :: t)) + 7) / 8)
        (from_bytes_be (b :: t)) = b :: t
      rw [hlen]
      exact to_from_bytes (b :: t) hb

/-- C2 amended: for every generated key pair and every byte string m with
int(m) < n, decrypt∘encrypt returns exactly the MINIMAL big-endian encoding
of int(m); consequently the round-trip returns m itself precisely when m
carries no leading zero byte (m is empty or its first byte is nonzero). -/
theorem claim_C2_amended_rsa_roundtrip (bits p q n e d : Nat)
    (hkp : GeneratedKeyPair bits p q n e d) (m : List Nat) (hmb : Bytes m)
    (hlt : from_bytes_be m < n) :
    (rsa_encrypt n e m).map (rsa_decrypt n d) =
      some (int_to_bytes (from_bytes_be m)) ∧
    ((rsa_encrypt n e m).map (rsa_decrypt n d) = some m ↔
      (m = [] ∨ m.getD 0 0 ≠ 0)) := by
  obtain ⟨hp, hq, hpq, -, -, -, -, -, -, hn, -, -, hde⟩ := hkp
  have hmain : (rsa_encrypt n e m).map (rsa_decrypt n d) =
      some (int_to_bytes (from_bytes_be m)) := by
    rw [rsa_encrypt]
    show (if n ≤ from_bytes_be m then none
      else some (int_to_bytes (pow_mod (from_bytes_be m) e n))).map (rsa_decrypt n d) = _
    rw [if_neg (by omega), Option.map_some']
    show some (int_to_bytes (pow_mod (from_bytes_be
      (int_to_bytes (pow_mod (from_bytes_be m) e n))) d n)) = _
    rw [from_int_to_bytes, pow_mod_eq, pow_mod_eq, ← Nat.pow_mod, ← pow_mul,
      mul_comm e d, hn, rsa_roundtrip_core hp hq hpq hde (by omega)]
  refine ⟨hmain, ?_⟩
  rw [hmain]
  constructor
  · intro h
    exact (int_to_bytes_from_bytes m hmb).mp (Option.some_injective _ h)
  · intro h
    rw [(int_to_bytes_from_bytes m hmb).mpr h]

/-- A concrete key pair as produced by `generate_keys(1024)`:
p = 50773·2^496 + 1 and q = 51907·2^496 + 1 are 512-bit primes. -/
def RSA_P : Nat := 50773 * 2 ^ 496 + 1

/-- The second generated 512-bit prime. -/
def RSA_Q : Nat := 51907 * 2 ^ 496 + 1

/-- The 1024-bit modulus of the concrete pair. -/
def RSA_N : Nat := RSA_P * RSA_Q

/-- The public exponent (the loop accepts 65537 immediately). -/
def RSA_E : Nat := 65537

/-- `pow(65537, -1, (RSA_P - 1) * (RSA_Q - 1))`. -/
def RSA_D : Nat := 73221246802466256890401256378674342698315947926354636243170545600947338421117096144338732909096902869076756408554490349333690000974106733026116635058393761487725295880655742769863657449871651142765050005814855112528717680226635207219188631615319488435290807575586343727898542944861307563917262879939188686849

theorem prime_50773 : Nat.Prime 50773 := by norm_num

theorem prime_51907 : Nat.Prime 51907 := by norm_num

theorem rsa_p_prime : Nat.Prime RSA_P := by
  have hplt : 1 < RSA_P := by decide
  have hsub : RSA_P - 1 = 50773 * 2 ^ 496 := by decide
  apply lucas_primality RSA_P ((3 : Nat) : ZMod RSA_P)
  · rw [zmod_pow_eq_one_iff RSA_P 3 (RSA_P - 1) hplt, ← pow_mod_eq 3 (RSA_P - 1) RSA_P]
    decide
  · intro r hr hdvd
    rw [hsub] at hdvd
    have hcase : r = 2 ∨ r = 50773 := by
      rcases (Nat.Prime.dvd_mul hr).mp hdvd with h | h
      · exact Or.inr ((Nat.prime_dvd_prime_iff_eq hr prime_50773).mp h)
      · exact Or.inl ((Nat.prime_dvd_prime_iff_eq hr Nat.prime_two).mp (hr.dvd_of_dvd_pow h))
    rcases hcase with rfl | rfl
    · rw [Ne, zmod_pow_eq_one_iff RSA_P 3 ((RSA_P - 1) / 2) hplt,
        ← pow_mod_eq 3 ((RSA_P - 1) / 2) RSA_P]
      decide
    · rw [Ne, zmod_pow_eq_one_iff RSA_P 3 ((RSA_P - 1) / 50773) hplt,
        ← pow_mod_eq 3 ((RSA_P - 1) / 50773) RSA_P]
      decide

theorem rsa_q_prime : Nat.Prime RSA_Q := by
  have hplt : 1 < RSA_Q := by decide
  have hsub : RSA_Q - 1 = 51907 * 2 ^ 496 := by decide
  apply lucas_primality RSA_Q ((3 : Nat) : ZMod RSA_Q)
  · rw [zmod_pow_eq_one_iff RSA_Q 3 (RSA_Q - 1) hplt, ← pow_mod_eq 3 (RSA_Q - 1) RSA_Q]
    decide
  · intro r hr hdvd
    rw [hsub] at hdvd
    have hcase : r = 2 ∨ r = 51907 := by
      rcases (Nat.Prime.dvd_mul hr).mp hdvd with h | h
      · exact Or.inr ((Nat.prime_dvd_prime_iff_eq hr prime_51907).mp h)
      · exact Or.inl ((Nat.prime_dvd_prime_iff_eq hr Nat.prime_two).mp (hr.dvd_of_dvd_pow h))
    rcases hcase with rfl | rfl
    · rw [Ne, zmod_pow_eq_one_iff RSA_Q 3 ((RSA_Q - 1) / 2) hplt,
        ← pow_mod_eq 3 ((RSA_Q - 1) / 2) RSA_Q]
      decide
    · rw [Ne, zmod_pow_eq_one_iff RSA_Q 3 ((RSA_Q - 1) / 51907) hplt,
        ← pow_mod_eq 3 ((RSA_Q - 1) / 51907) RSA_Q]
      decide

/-- The concrete pair really is a possible output of `generate_keys(1024)`. -/
theorem kp_generated : GeneratedKeyPair 1024 RSA_P RSA_Q RSA_N RSA_E RSA_D := by
  refine ⟨rsa_p_prime, rsa_q_prime, by decide, by decide, by decide, by decide,
    by decide, by decide, by decide, rfl, ⟨0, by decide, by decide, ?_⟩,
    by decide, by decide⟩
  intro i hi
  exact absurd hi (Nat.not_lt_zero i)

/-- C2 counterexample: with the concrete generated 1024-bit pair and the
message b"\x00" (int value 0 < n), encrypt emits the empty cipher (0
encodes to zero bytes) and decrypt returns b"" ≠ b"\x00": the claimed
round-trip fails on byte strings with a leading zero byte. -/
theorem claim_C2_counterexample :
    GeneratedKeyPair 1024 RSA_P RSA_Q RSA_N RSA_E RSA_D ∧
    2 ^ 1023 ≤ RSA_N ∧ RSA_N < 2 ^ 1024 ∧
    Bytes [0] ∧ from_bytes_be [0] < RSA_N ∧
    (rsa_encrypt RSA_N RSA_E [0]).map (rsa_decrypt RSA_N RSA_D) = some [] ∧
    (rsa_encrypt RSA_N RSA_E [0]).map (rsa_decrypt RSA_N RSA_D) ≠ some [0] := by
  refine ⟨kp_generated, by decide, by decide, by decide, by decide, ?_, ?_⟩
  · show (if RSA_N ≤ from_bytes_be [0] then none
      else some (int_to_bytes (pow_mod (from_bytes_be [0]) RSA_E RSA_N))).map
        (rsa_decrypt RSA_N RSA_D) = some []
    rw [if_neg (by decide), Option.map_some']
    decide
  · intro h
    rw [show (rsa_encrypt RSA_N RSA_E [0]) =
      some (int_to_bytes (pow_mod (from_bytes_be [0]) RSA_E RSA_N)) from by
        rw [rsa_encrypt]
        show (if RSA_N ≤ from_bytes_be [0] then none else _) = _
        rw [if_neg (by decide)], Option.map_some'] at h
    have : (int_to_bytes (pow_mod (from_bytes_be
      (int_to_bytes (pow_mod (from_bytes_be [0]) RSA_E RSA_N))) RSA_D RSA_N)) = [0] :=
      Option.some_injective _ h
    rw [show (int_to_bytes (pow_mod (from_bytes_be
      (int_to_bytes (pow_mod (from_bytes_be [0]) RSA_E RSA_N))) RSA_D RSA_N)) = [] from by
        decide] at this
    exact absurd this (by decide)

/-- Witness for the amended C2 at the minimal one-byte message b"\x02". -/
theorem claim_C2_witness :
    (rsa_encrypt RSA_N RSA_E [2]).map (rsa_decrypt RSA_N RSA_D) =
      some (int_to_bytes (from_bytes_be [2])) ∧
    ((rsa_encrypt RSA_N RSA_E [2]).map (rsa_decrypt RSA_N RSA_D) = some [2] ↔
      (([2] : List Nat) = [] ∨ [2].getD 0 0 ≠ 0)) :=
  claim_C2_amended_rsa_roundtrip 1024 RSA_P RSA_Q RSA_N RSA_E RSA_D kp_generated
    [2] (by decide) (by decide)

end SecureChat
